import Mathlib

/-!
Shallow embedding of the Sudoku puzzle engine of `src/app.jsx`.

The source is a React component; the engine parts embedded here are the
pure helpers (`isSafe`, `solveSudoku`, `generateFullBoard`, `generatePuzzle`,
`checkCompletion`) and the session-mutating handlers (`handleNumberInput`,
`handleErase`, selection and memo-mode toggling), with React `useState`
cells gathered into an explicit `Session` record.

Randomness (`Math.random`) is modelled by explicit oracle streams:
`firstRow` for the shuffled first row, `rs` for the per-call shuffled digit
orders inside the solver, and `ps` for the random removal coordinates.
The JS shuffles always yield permutations of `[1,...,9]`, and the removal
coordinates are always in range, which the theorems take as hypotheses.
-/

namespace Sudoku

/-- `const BLANK = 0`. -/
def BLANK : Nat := 0

/-- `const GRID_SIZE = 9`. -/
def GRID_SIZE : Nat := 9

/-- A 9x9 board, row-major, mirroring the JS nested arrays. -/
abbrev Board := List (List Nat)

/-- `Array.from({length: GRID_SIZE}, () => Array(GRID_SIZE).fill(BLANK))`. -/
def getEmptyBoard : Board := List.replicate 9 (List.replicate 9 BLANK)

/-- Read `board[r][c]`.  Out-of-range reads return 0; all real calls are
in range on 9x9 boards. -/
def getCell (b : Board) (r c : Nat) : Nat := (b.getD r []).getD c 0

/-- Write `board[r][c] = v`. -/
def setCell (b : Board) (r c v : Nat) : Board := b.set r ((b.getD r []).set c v)

/-- The digit list `[1, 2, 3, 4, 5, 6, 7, 8, 9]`. -/
def digits : List Nat := [1, 2, 3, 4, 5, 6, 7, 8, 9]

/-- `isSafe(board, row, col, num)`: scan the whole row, the whole column and
the 3x3 block starting at `(row - row % 3, col - col % 3)`; any cell equal to
`num` makes the result `false`.  (The scans include the cell `(row, col)`
itself, exactly as the JS loops do.) -/
def isSafe (b : Board) (row col num : Nat) : Bool :=
  ((List.range GRID_SIZE).all fun x => !(getCell b row x == num)) &&
  ((List.range GRID_SIZE).all fun x => !(getCell b x col == num)) &&
  ((List.range 3).all fun i => (List.range 3).all fun j =>
    !(getCell b (i + (row - row % 3)) (j + (col - col % 3)) == num))

/-- Scan for a BLANK cell from linear index `i` on, with `rem` indices left
to inspect; linear index `i` denotes cell `(i / 9, i % 9)`, so the scan order
is exactly the row-major double loop of `solveSudoku`. -/
def firstBlankFrom (b : Board) : Nat → Nat → Option (Nat × Nat)
  | 0, _ => none
  | rem + 1, i =>
    if getCell b (i / 9) (i % 9) = BLANK then some (i / 9, i % 9)
    else firstBlankFrom b rem (i + 1)

/-- The first BLANK cell in row-major order (the nested `for` loops of
`solveSudoku`), if any. -/
def findBlank (b : Board) : Option (Nat × Nat) := firstBlankFrom b 81 0

/-- The `for (let num of nums)` loop body of `solveSudoku`: try the
candidate digits in order at the blank cell `(r, c)`.  If a candidate is
safe it is placed and `solve` (the recursive call at the next depth) runs on
the updated board; on failure the cell is reset to BLANK and the next
candidate is tried.  The thread `k` counts shuffle calls consumed so far. -/
def tryNums (solve : Board → Nat → Bool × Board × Nat) :
    Board → Nat → Nat → List Nat → Nat → Bool × Board × Nat
  | b, _, _, [], k => (false, b, k)
  | b, r, c, n :: rest, k =>
    if isSafe b r c n then
      match solve (setCell b r c n) k with
      | (true, b2, k2) => (true, b2, k2)
      | (false, b2, k2) => tryNums solve (setCell b2 r c BLANK) r c rest k2
    else tryNums solve b r c rest k

/-- `solveSudoku`, with the recursion depth bounded by explicit fuel.  Each
level of the JS recursion handles one blank cell, so the depth never exceeds
82 on a 9x9 board; `solve_fuel_enough` below shows the fuel bound is never
hit.  `rs k` is the outcome of the `k`-th `[1,...,9].sort(() => Math.random()
- 0.5)` shuffle. -/
def solveAux (rs : Nat → List Nat) : Nat → Board → Nat → Bool × Board × Nat
  | 0, b, k => (false, b, k)
  | fuel + 1, b, k =>
    match findBlank b with
    | none => (true, b, k)
    | some (r, c) => tryNums (solveAux rs fuel) b r c (rs k) (k + 1)

/-- `solveSudoku(board)`: returns the JS boolean, the board after the
(in JS, in-place) mutations, and the number of shuffles consumed. -/
def solveSudoku (rs : Nat → List Nat) (b : Board) (k : Nat) : Bool × Board × Nat :=
  solveAux rs 82 b k

/-- `generateFullBoard()`: put the shuffled `firstRow` into row 0 of an empty
board, run the solver, return the board.  As in the JS, the solver's boolean
result is discarded. -/
def generateFullBoard (firstRow : List Nat) (rs : Nat → List Nat) : Board :=
  (solveSudoku rs (getEmptyBoard.set 0 firstRow) 0).2.1

/-- The difficulty selector values `'Easy' | 'Medium' | 'Hard'`. -/
inductive Difficulty
  | Easy
  | Medium
  | Hard
deriving DecidableEq

/-- `difficulty === 'Easy' ? 30 : difficulty === 'Medium' ? 45 : 55`. -/
def removalBudget : Difficulty → Nat
  | .Easy => 30
  | .Medium => 45
  | .Hard => 55

/-- The `while (attempts > 0)` removal loop of `generatePuzzle`.  `ps k` is
the `k`-th random coordinate pair (always in range, as `Math.floor(
Math.random() * GRID_SIZE)` is).  The JS loop terminates only with
probability 1; the model returns `none` when `fuel` runs out, corresponding
to a run of the loop that has not terminated after `fuel` iterations. -/
def removeCells (ps : Nat → Fin 9 × Fin 9) : Nat → Nat → Board → Nat → Option Board
  | _, _, puzzle, 0 => some puzzle
  | 0, _, _, _ + 1 => none
  | fuel + 1, k, puzzle, attempts + 1 =>
    if getCell puzzle (ps k).1.val (ps k).2.val ≠ BLANK then
      removeCells ps fuel (k + 1) (setCell puzzle (ps k).1.val (ps k).2.val BLANK) attempts
    else
      removeCells ps fuel (k + 1) puzzle (attempts + 1)

/-- `generatePuzzle(difficulty)`: generate the full solution board, copy it
(the copy is implicit here since boards are immutable values), blank
`removalBudget` cells at random coordinates, and return the pair. -/
def generatePuzzle (d : Difficulty) (firstRow : List Nat) (rs : Nat → List Nat)
    (ps : Nat → Fin 9 × Fin 9) (fuel : Nat) : Board × Option Board :=
  (generateFullBoard firstRow rs,
   removeCells ps fuel 0 (generateFullBoard firstRow rs) (removalBudget d))

/-! ## The play session (the React state of `App`) -/

/-- The `useState` cells of the component that the game logic touches.
`memos` models the JS object `{ "r-c": [digits] }` as an association list
keyed by the coordinate pair (the JS string keys `` `${r}-${c}` `` are in
bijection with the pairs for `r, c < 9`). -/
structure Session where
  initialBoard : Board
  board : Board
  solution : Board
  selectedCell : Option (Nat × Nat)
  memos : List ((Nat × Nat) × List Nat)
  isMemoMode : Bool
  mistakes : Nat
  isComplete : Bool
deriving DecidableEq

/-- `memos[key]` (as `some value` when the key is present). -/
def lookupMemo : List ((Nat × Nat) × List Nat) → Nat × Nat → Option (List Nat)
  | [], _ => none
  | e :: ms, key => if e.1 = key then some e.2 else lookupMemo ms key

/-- `{ ...memos, [key]: v }`: replace the binding when the key is present,
add it otherwise. -/
def setMemo : List ((Nat × Nat) × List Nat) → Nat × Nat → List Nat → List ((Nat × Nat) × List Nat)
  | [], key, v => [(key, v)]
  | e :: ms, key, v => if e.1 = key then (key, v) :: ms else e :: setMemo ms key v

/-- `const { [key]: deleted, ...restMemos } = memos`: drop the binding for
`key` (a no-op when the key is absent, matching the `if (memos[key])`
guard). -/
def removeMemo : List ((Nat × Nat) × List Nat) → Nat × Nat → List ((Nat × Nat) × List Nat)
  | [], _ => []
  | e :: ms, key => if e.1 = key then removeMemo ms key else e :: removeMemo ms key

/-- `checkCompletion(currentBoard, solutionBoard)` as the boolean it
computes: every cell of the two boards equal.  (The JS sets `isComplete`
to `true` exactly when no mismatch is found, and never resets it.) -/
def checkCompletion (currentBoard solutionBoard : Board) : Bool :=
  (List.range GRID_SIZE).all fun i => (List.range GRID_SIZE).all fun j =>
    getCell currentBoard i j == getCell solutionBoard i j

/-- Apply the completion check to the session: set `isComplete` when the
boards agree, leave it untouched otherwise. -/
def updateCompletion (s : Session) : Session :=
  if checkCompletion s.board s.solution then { s with isComplete := true } else s

/-- The memo-mode update of `handleNumberInput`: remove `num` when present
(`currentMemos.filter(n => n !== num)`), else append and sort
(`[...currentMemos, num].sort()`).  The JS default sort comparator compares
decimal strings, which on one-digit numbers agrees with numeric order, so it
is modelled by a numeric insertion sort of the appended list. -/
def memoToggleList (currentMemos : List Nat) (num : Nat) : List Nat :=
  if num ∈ currentMemos then currentMemos.filter fun n => n ≠ num
  else (currentMemos ++ [num]).insertionSort (· ≤ ·)

/-- `handleNumberInput(num)`. -/
def handleNumberInput (s : Session) (num : Nat) : Session :=
  if s.isComplete then s else
  match s.selectedCell with
  | none => s
  | some (r, c) =>
    if getCell s.initialBoard r c ≠ BLANK then s
    else if s.isMemoMode then
      { s with memos :=
          (setMemo s.memos (r, c) (memoToggleList ((lookupMemo s.memos (r, c)).getD []) num)) }
    else if getCell s.board r c = num then
      updateCompletion { s with board := setCell s.board r c BLANK }
    else if num ≠ getCell s.solution r c then
      updateCompletion { s with board := setCell s.board r c num, mistakes := s.mistakes + 1 }
    else
      updateCompletion { s with board := setCell s.board r c num,
                                memos := removeMemo s.memos (r, c) }

/-- `handleErase()`. -/
def handleErase (s : Session) : Session :=
  if s.isComplete then s else
  match s.selectedCell with
  | none => s
  | some (r, c) =>
    if getCell s.initialBoard r c ≠ BLANK then s
    else { s with board := setCell s.board r c BLANK }

/-- `setSelectedCell([r, c])` (the cell click handler). -/
def selectCell (s : Session) (r c : Nat) : Session := { s with selectedCell := some (r, c) }

/-- `setIsMemoMode(!isMemoMode)`. -/
def toggleMemoMode (s : Session) : Session := { s with isMemoMode := !s.isMemoMode }

/-- `startNewGame`: session built from a `generatePuzzle` result.  The memo
mode flag is not reset by `startNewGame`, so it is a parameter. -/
def initSession (solution puzzle : Board) (memoMode : Bool) : Session :=
  { initialBoard := puzzle, board := puzzle, solution := solution,
    selectedCell := none, memos := [], isMemoMode := memoMode,
    mistakes := 0, isComplete := false }

/-- One user-intent operation on the session. -/
inductive Op
  | select (r c : Nat)
  | place (d : Nat)
  | erase
  | memoToggle
deriving DecidableEq

/-- Apply one operation. -/
def applyOp (s : Session) : Op → Session
  | .select r c => selectCell s r c
  | .place d => handleNumberInput s d
  | .erase => handleErase s
  | .memoToggle => toggleMemoMode s

/-- The UI only ever issues in-range selections and digits 1-9. -/
def opOK : Op → Prop
  | .select r c => r < 9 ∧ c < 9
  | .place d => 1 ≤ d ∧ d ≤ 9
  | .erase => True
  | .memoToggle => True

instance : DecidablePred opOK := fun op => by
  cases op <;> simp [opOK] <;> infer_instance

/-- Apply a list of operations in order. -/
def applyOps (s : Session) (ops : List Op) : Session := ops.foldl applyOp s

/-- The session states reachable in the app: an initial state built from a
`generatePuzzle` run (with the random streams constrained exactly as the JS
produces them: shuffles are permutations of 1-9, removal coordinates in
range by the `Fin 9` type), closed under the four user operations with the
inputs the UI can produce. -/
inductive Reachable : Session → Prop
  | init (d : Difficulty) (fr : List Nat) (rs : Nat → List Nat) (ps : Nat → Fin 9 × Fin 9)
      (fuel : Nat) (m : Bool) (puz : Board)
      (hfr : fr.Perm digits) (hrs : ∀ k, (rs k).Perm digits)
      (hpz : (generatePuzzle d fr rs ps fuel).2 = some puz) :
      Reachable (initSession (generatePuzzle d fr rs ps fuel).1 puz m)
  | select (s : Session) (r c : Nat) (hs : Reachable s) (hr : r < 9) (hc : c < 9) :
      Reachable (selectCell s r c)
  | place (s : Session) (d : Nat) (hs : Reachable s) (h1 : 1 ≤ d) (h9 : d ≤ 9) :
      Reachable (handleNumberInput s d)
  | erase (s : Session) (hs : Reachable s) : Reachable (handleErase s)
  | memoToggle (s : Session) (hs : Reachable s) : Reachable (toggleMemoMode s)

/-! ## Validity predicates (the spec-level notions the claims use) -/

/-- The cells of row `r`. -/
def rowCells (b : Board) (r : Nat) : List Nat := (List.range 9).map fun c => getCell b r c

/-- The cells of column `c`. -/
def colCells (b : Board) (c : Nat) : List Nat := (List.range 9).map fun r => getCell b r c

/-- The cells of the 3x3 box with box coordinates `(bi, bj)`. -/
def boxCells (b : Board) (bi bj : Nat) : List Nat :=
  (List.range 9).map fun t => getCell b (3 * bi + t / 3) (3 * bj + t % 3)

/-- A unit (row, column or box) contains each of 1-9 exactly once. -/
def unitOK (l : List Nat) : Bool := digits.all fun d => l.count d == 1

/-- Every row, column and box is a permutation of 1-9. -/
def validBoard (b : Board) : Bool :=
  ((List.range 9).all fun r => unitOK (rowCells b r)) &&
  ((List.range 9).all fun c => unitOK (colCells b c)) &&
  ((List.range 3).all fun bi => (List.range 3).all fun bj => unitOK (boxCells b bi bj))

/-- Number of BLANK cells among the 81 positions. -/
def countBlank (b : Board) : Nat :=
  (List.range 81).countP fun i => getCell b (i / 9) (i % 9) == BLANK

/-- Number of non-BLANK cells among the 81 positions. -/
def countFilled (b : Board) : Nat :=
  (List.range 81).countP fun i => !(getCell b (i / 9) (i % 9) == BLANK)

/-- The board is literally a 9x9 nested list (true of every board the JS
builds). -/
def shaped (b : Board) : Prop := b.length = 9 ∧ ∀ row ∈ b, row.length = 9

instance : DecidablePred shaped := fun b => by unfold shaped; infer_instance

/-- No Sudoku constraint is violated by the non-blank cells: all entries are
at most 9 and no digit repeats within a row, a column, or a box. -/
def consistent (b : Board) : Prop :=
  (∀ r c, r < 9 → c < 9 → getCell b r c ≤ 9) ∧
  (∀ r c₁ c₂, r < 9 → c₁ < 9 → c₂ < 9 → c₁ ≠ c₂ → getCell b r c₁ ≠ BLANK →
    getCell b r c₁ ≠ getCell b r c₂) ∧
  (∀ r₁ r₂ c, r₁ < 9 → r₂ < 9 → c < 9 → r₁ ≠ r₂ → getCell b r₁ c ≠ BLANK →
    getCell b r₁ c ≠ getCell b r₂ c) ∧
  (∀ r₁ c₁ r₂ c₂, r₁ < 9 → c₁ < 9 → r₂ < 9 → c₂ < 9 → r₁ / 3 = r₂ / 3 → c₁ / 3 = c₂ / 3 →
    (r₁, c₁) ≠ (r₂, c₂) → getCell b r₁ c₁ ≠ BLANK →
    getCell b r₁ c₁ ≠ getCell b r₂ c₂)

/-- Every non-blank cell of `b` agrees with `bf`. -/
def extendsTo (b bf : Board) : Prop :=
  ∀ r c, r < 9 → c < 9 → getCell b r c ≠ BLANK → getCell bf r c = getCell b r c

/-- A shaped, consistent, fully filled board. -/
def fullSolution (bf : Board) : Prop :=
  shaped bf ∧ consistent bf ∧ ∀ r c, r < 9 → c < 9 → getCell bf r c ≠ BLANK

/-- Index pattern of the classic shifted Sudoku grid: for any permutation
`fr` of 1-9, the board whose cell `(r, c)` holds `fr[patIdx r c]` is a valid
full solution with `fr` as its first row. -/
def patIdx (r c : Nat) : Nat := (c + 3 * (r % 3) + r / 3) % 9

def patternBoard (fr : List Nat) : Board :=
  (List.range 9).map fun r => (List.range 9).map fun c => fr.getD (patIdx r c) 0

/-- Every stored annotation list is strictly increasing (hence
duplicate-free, in ascending display order) and holds digits 1-9 only. -/
def memosWF (ms : List ((Nat × Nat) × List Nat)) : Prop :=
  ∀ key v, lookupMemo ms key = some v →
    List.Sorted (· < ·) v ∧ ∀ n ∈ v, 1 ≤ n ∧ n ≤ 9

/-- Invariant maintained by every reachable session state. -/
def Inv (s : Session) : Prop :=
  shaped s.board ∧ shaped s.solution ∧ shaped s.initialBoard ∧
  (∀ r c, r < 9 → c < 9 → 1 ≤ getCell s.solution r c ∧ getCell s.solution r c ≤ 9) ∧
  (∀ r c, r < 9 → c < 9 → getCell s.initialBoard r c ≠ BLANK →
    getCell s.board r c = getCell s.initialBoard r c ∧
    getCell s.initialBoard r c = getCell s.solution r c) ∧
  (s.isComplete = true ↔
    ∀ r c, r < 9 → c < 9 → getCell s.board r c = getCell s.solution r c) ∧
  (∀ p : Nat × Nat, s.selectedCell = some p → p.1 < 9 ∧ p.2 < 9) ∧
  memosWF s.memos

/-! ## Spec-comparison placement predicates (the spec's wording for
`isPlaceable`, used to compare against the code's `isSafe`) -/

/-- The digit occurs at some cell of the row, the column, or the box OTHER
THAN `(row, col)` itself — the reading the spec's word "elsewhere"
prescribes. -/
def occursElsewhere (b : Board) (row col num : Nat) : Bool :=
  ((List.range 9).any fun x => !(x == col) && (getCell b row x == num)) ||
  ((List.range 9).any fun x => !(x == row) && (getCell b x col == num)) ||
  ((List.range 3).any fun i => (List.range 3).any fun j =>
    !((i + (row - row % 3) == row) && (j + (col - col % 3) == col)) &&
      (getCell b (i + (row - row % 3)) (j + (col - col % 3)) == num))

/-- The digit occurs at some cell of the row, the column, or the box, the
cell `(row, col)` itself included — what the code's scans actually test. -/
def occursAnywhere (b : Board) (row col num : Nat) : Bool :=
  ((List.range 9).any fun x => getCell b row x == num) ||
  ((List.range 9).any fun x => getCell b x col == num) ||
  ((List.range 3).any fun i => (List.range 3).any fun j =>
    getCell b (i + (row - row % 3)) (j + (col - col % 3)) == num)

/-- `isPlaceable` as the spec words it: placeable unless the digit already
occurs elsewhere. -/
def isPlaceableSpec (b : Board) (row col num : Nat) : Bool :=
  !(occursElsewhere b row col num)

/-! ## Concrete random streams and the boards they generate (used for
witnesses and counterexamples; every stream below is a possible outcome of
the JS `Math.random` calls) -/

/-- A digit-order stream whose `k`-th shuffle outcome is a rotation of
`[1,...,9]` putting the shifted-pattern digit of the `k`-th blank cell
first.  Every rotation is a permutation, so this is a legal shuffle
sequence. -/
def rsPat (k : Nat) : List Nat := digits.rotate (patIdx ((9 + k) / 9) ((9 + k) % 9))

/-- A removal-coordinate stream enumerating the 81 cells in row-major
order. -/
def psSeq (k : Nat) : Fin 9 × Fin 9 := (⟨k % 81 / 9, by omega⟩, ⟨k % 9, by omega⟩)

/-- The solution board `generatePuzzle Easy digits rsPat psSeq 100`
produces (checked by `genEasy` below). -/
def solLit : Board :=
  [[1, 2, 3, 4, 5, 6, 7, 8, 9],
   [4, 5, 6, 7, 8, 9, 1, 2, 3],
   [7, 8, 9, 1, 2, 3, 4, 5, 6],
   [2, 3, 4, 5, 6, 7, 8, 9, 1],
   [5, 6, 7, 8, 9, 1, 2, 3, 4],
   [8, 9, 1, 2, 3, 4, 5, 6, 7],
   [3, 4, 5, 6, 7, 8, 9, 1, 2],
   [6, 7, 8, 9, 1, 2, 3, 4, 5],
   [9, 1, 2, 3, 4, 5, 6, 7, 8]]

/-- The puzzle board of the same run: the removal loop blanks the first 30
cells in row-major order. -/
def puzLit : Board :=
  [[0, 0, 0, 0, 0, 0, 0, 0, 0],
   [0, 0, 0, 0, 0, 0, 0, 0, 0],
   [0, 0, 0, 0, 0, 0, 0, 0, 0],
   [0, 0, 0, 5, 6, 7, 8, 9, 1],
   [5, 6, 7, 8, 9, 1, 2, 3, 4],
   [8, 9, 1, 2, 3, 4, 5, 6, 7],
   [3, 4, 5, 6, 7, 8, 9, 1, 2],
   [6, 7, 8, 9, 1, 2, 3, 4, 5],
   [9, 1, 2, 3, 4, 5, 6, 7, 8]]

/-- Fill 29 of the 30 blanks of `puzLit` with their solution digits,
leaving only cell (3, 2) blank. -/
def opsFill29 : List Op :=
  [.select 0 0, .place 1,
   .select 0 1, .place 2,
   .select 0 2, .place 3,
   .select 0 3, .place 4,
   .select 0 4, .place 5,
   .select 0 5, .place 6,
   .select 0 6, .place 7,
   .select 0 7, .place 8,
   .select 0 8, .place 9,
   .select 1 0, .place 4,
   .select 1 1, .place 5,
   .select 1 2, .place 6,
   .select 1 3, .place 7,
   .select 1 4, .place 8,
   .select 1 5, .place 9,
   .select 1 6, .place 1,
   .select 1 7, .place 2,
   .select 1 8, .place 3,
   .select 2 0, .place 7,
   .select 2 1, .place 8,
   .select 2 2, .place 9,
   .select 2 3, .place 1,
   .select 2 4, .place 2,
   .select 2 5, .place 3,
   .select 2 6, .place 4,
   .select 2 7, .place 5,
   .select 2 8, .place 6,
   .select 3 0, .place 2,
   .select 3 1, .place 3]

/-- A small play state used as witness input: fresh Easy session with cell
(0, 0) selected and annotation set {2, 5} recorded there. -/
def sessA : Session :=
  { initialBoard := puzLit, board := puzLit, solution := solLit,
    selectedCell := some (0, 0), memos := [((0, 0), [2, 5])], isMemoMode := false,
    mistakes := 0, isComplete := false }

/-- Witness input: fresh Easy session with cell (0, 0) selected, no memos,
memo mode off. -/
def sessB : Session :=
  { initialBoard := puzLit, board := puzLit, solution := solLit,
    selectedCell := some (0, 0), memos := [], isMemoMode := false,
    mistakes := 0, isComplete := false }

/-- Witness input: fresh Easy session with cell (0, 0) selected, a single
annotated digit 5 there, memo mode on. -/
def sessC : Session :=
  { initialBoard := puzLit, board := puzLit, solution := solLit,
    selectedCell := some (0, 0), memos := [((0, 0), [5])], isMemoMode := true,
    mistakes := 0, isComplete := false }

/-! ## Basic lemmas about cell access -/

theorem set_getD_self {α : Type} {d : α} : ∀ {l : List α} {i : Nat}, i < l.length →
    l.set i (l.getD i d) = l
  | [], i, h => by simp at h
  | a :: l, 0, _ => by simp
  | a :: l, i + 1, h => by
    simp only [List.set, List.getD, List.get?]
    have := @set_getD_self α d l i (by simpa using h)
    simpa using this

theorem shaped_getEmptyBoard : shaped getEmptyBoard := by
  constructor <;> simp [getEmptyBoard]

theorem row_length {b : Board} (hb : shaped b) {r : Nat} (hr : r < 9) :
    (b.getD r []).length = 9 := by
  obtain ⟨hlen, hrow⟩ := hb
  have h : r < b.length := by omega
  rw [List.getD_eq_getElem _ _ h]
  exact hrow _ (b.getElem_mem h)

theorem shaped_setCell {b : Board} (hb : shaped b) (r c v : Nat) :
    shaped (setCell b r c v) := by
  obtain ⟨hlen, hrow⟩ := hb
  rcases Nat.lt_or_ge r 9 with hr | hr
  · refine ⟨by simp [setCell, hlen], ?_⟩
    intro row hmem
    rcases List.mem_or_eq_of_mem_set hmem with h | h
    · exact hrow _ h
    · subst h
      rw [List.length_set]; exact row_length ⟨hlen, hrow⟩ hr
  · rw [setCell, List.set_eq_of_length_le (by omega)]
    exact ⟨hlen, hrow⟩

theorem getCell_setCell {b : Board} (hb : shaped b) {r c : Nat} (hr : r < 9) (hc : c < 9)
    (v r' c' : Nat) :
    getCell (setCell b r c v) r' c' = if r = r' ∧ c = c' then v else getCell b r' c' := by
  have hlen : b.length = 9 := hb.1
  have hrowlen : (b[r]?.getD []).length = 9 := by
    rw [← List.getD_eq_getElem?_getD]; exact row_length hb hr
  simp only [getCell, setCell, List.getD_eq_getElem?_getD, List.getElem?_set]
  by_cases hrr : r = r'
  · subst hrr
    simp only [if_pos rfl, if_pos (show r < b.length by omega), Option.getD_some]
    by_cases hcc : c = c'
    · subst hcc
      simp [hrowlen, hc]
    · simp [hcc]
  · simp [hrr]

theorem getCell_setCell_self {b : Board} (hb : shaped b) {r c : Nat} (hr : r < 9) (hc : c < 9)
    (v : Nat) : getCell (setCell b r c v) r c = v := by
  rw [getCell_setCell hb hr hc]; simp

theorem getCell_setCell_ne {b : Board} (hb : shaped b) {r c : Nat} (hr : r < 9) (hc : c < 9)
    (v : Nat) {r' c' : Nat} (h : ¬(r = r' ∧ c = c')) :
    getCell (setCell b r c v) r' c' = getCell b r' c' := by
  rw [getCell_setCell hb hr hc, if_neg h]

theorem setCell_setCell {b : Board} (hb : shaped b) {r c : Nat} (hr : r < 9)
    (v w : Nat) : setCell (setCell b r c v) r c w = setCell b r c w := by
  have hlen : b.length = 9 := hb.1
  have h1 : r < (List.set b r ((b.getD r []).set c v)).length := by
    rw [List.length_set]; omega
  simp only [setCell]
  rw [List.getD_eq_getElem _ _ h1, List.getElem_set_self]
  have h2 : ((b.getD r []).set c v).set c w = (b.getD r []).set c w := List.set_set ..
  rw [h2, List.set_set]

theorem setCell_cancel {b : Board} (hb : shaped b) {r c v : Nat} (hr : r < 9) (hc : c < 9)
    (hv : getCell b r c = v) : setCell b r c v = b := by
  have hlen : b.length = 9 := hb.1
  have hrow : (b.getD r []).length = 9 := row_length hb hr
  have h2 : (b.getD r []).set c v = b.getD r [] := by
    rw [← hv, getCell, set_getD_self (by omega)]
  rw [setCell, h2, set_getD_self (by omega)]

theorem getCell_out_row {b : Board} (hb : shaped b) {r : Nat} (hr : 9 ≤ r) (c : Nat) :
    getCell b r c = 0 := by
  have hlen : b.length = 9 := hb.1
  have h1 : b.getD r [] = [] := List.getD_eq_default b [] (by omega)
  rw [getCell, h1]
  cases c <;> rfl

theorem getCell_out_col {b : Board} (hb : shaped b) (r : Nat) {c : Nat} (hc : 9 ≤ c) :
    getCell b r c = 0 := by
  rcases Nat.lt_or_ge r 9 with hr | hr
  · rw [getCell, List.getD_eq_default _ _ (by rw [row_length hb hr]; omega)]
  · exact getCell_out_row hb hr c

/-! ## Characterizing `isSafe` and `findBlank` -/

theorem isSafe_iff (b : Board) (row col num : Nat) :
    isSafe b row col num = true ↔
      (∀ x, x < 9 → getCell b row x ≠ num) ∧
      (∀ x, x < 9 → getCell b x col ≠ num) ∧
      (∀ i j, i < 3 → j < 3 →
        getCell b (i + (row - row % 3)) (j + (col - col % 3)) ≠ num) := by
  simp only [isSafe, GRID_SIZE, Bool.and_eq_true, List.all_eq_true, List.mem_range,
    Bool.not_eq_true', beq_eq_false_iff_ne, ne_eq, and_assoc]
  constructor
  · rintro ⟨h1, h2, h3⟩
    exact ⟨fun x hx => h1 x hx, fun x hx => h2 x hx, fun i j hi hj => h3 i hi j hj⟩
  · rintro ⟨h1, h2, h3⟩
    exact ⟨fun x hx => h1 x hx, fun x hx => h2 x hx, fun i hi j hj => h3 i j hi hj⟩

theorem firstBlankFrom_none {b : Board} :
    ∀ rem i, firstBlankFrom b rem i = none →
      ∀ j, i ≤ j → j < i + rem → getCell b (j / 9) (j % 9) ≠ BLANK
  | 0, i, _, j, h1, h2 => by omega
  | rem + 1, i, h, j, h1, h2 => by
    rw [firstBlankFrom] at h
    split at h
    · exact absurd h (by simp)
    · next hne =>
      rcases Nat.eq_or_lt_of_le h1 with rfl | hlt
      · exact hne
      · exact firstBlankFrom_none rem (i + 1) h j hlt (by omega)

theorem findBlank_none {b : Board} (h : findBlank b = none) :
    ∀ r c, r < 9 → c < 9 → getCell b r c ≠ BLANK := by
  intro r c hr hc
  have h9 : (9 * r + c) / 9 = r ∧ (9 * r + c) % 9 = c := by omega
  have := firstBlankFrom_none 81 0 h (9 * r + c) (by omega) (by omega)
  rwa [h9.1, h9.2] at this

theorem firstBlankFrom_some {b : Board} :
    ∀ rem i r c, firstBlankFrom b rem i = some (r, c) →
      ∃ j, i ≤ j ∧ j < i + rem ∧ r = j / 9 ∧ c = j % 9 ∧ getCell b r c = BLANK
  | 0, i, r, c, h => by simp [firstBlankFrom] at h
  | rem + 1, i, r, c, h => by
    rw [firstBlankFrom] at h
    split at h
    · next heq =>
      obtain ⟨rfl, rfl⟩ : i / 9 = r ∧ i % 9 = c := by
        simpa [Prod.ext_iff] using h
      exact ⟨i, by omega, by omega, rfl, rfl, heq⟩
    · obtain ⟨j, hj1, hj2, hj⟩ := firstBlankFrom_some rem (i + 1) r c h
      exact ⟨j, by omega, by omega, hj⟩

theorem findBlank_some {b : Board} {r c : Nat} (h : findBlank b = some (r, c)) :
    r < 9 ∧ c < 9 ∧ getCell b r c = BLANK := by
  obtain ⟨j, _, hj2, rfl, rfl, hblank⟩ := firstBlankFrom_some 81 0 r c h
  exact ⟨by omega, by omega, hblank⟩

/-! ## Counting blanks -/

theorem countP_succ_of_flip {p q : Nat → Bool} :
    ∀ {l : List Nat} {i0 : Nat}, i0 ∈ l → l.Nodup →
      p i0 = true → q i0 = false → (∀ j ∈ l, j ≠ i0 → q j = p j) →
      l.countP q + 1 = l.countP p
  | [], i0, hmem, _, _, _, _ => by simp at hmem
  | a :: t, i0, hmem, hnd, hp, hq, hagree => by
    have hnotin : a ∉ t := (List.nodup_cons.mp hnd).1
    have hndt : t.Nodup := (List.nodup_cons.mp hnd).2
    by_cases hai : i0 = a
    · subst hai
      have ht : t.countP q = t.countP p := by
        apply List.countP_congr
        intro j hj
        rw [hagree j (List.mem_cons_of_mem _ hj) (fun hji => hnotin (hji ▸ hj))]
      rw [List.countP_cons, List.countP_cons, hp, hq, ht]
      simp
    · have hmemt : i0 ∈ t := by
        rcases List.mem_cons.mp hmem with h | h
        · exact absurd h hai
        · exact h
      have ha : q a = p a := hagree a (by simp) (fun h => hai h.symm)
      have ih := countP_succ_of_flip hmemt hndt hp hq
        (fun j hj hji => hagree j (List.mem_cons_of_mem _ hj) hji)
      rw [List.countP_cons, List.countP_cons, ha]
      omega

theorem countBlank_setCell {b : Board} (hb : shaped b) {r c : Nat} (hr : r < 9) (hc : c < 9)
    (hfull : getCell b r c ≠ BLANK) :
    countBlank (setCell b r c BLANK) = countBlank b + 1 := by
  unfold countBlank
  have key := @countP_succ_of_flip
    (fun i => getCell (setCell b r c BLANK) (i / 9) (i % 9) == BLANK)
    (fun i => getCell b (i / 9) (i % 9) == BLANK)
    (List.range 81) (9 * r + c)
    (List.mem_range.mpr (by omega)) (List.nodup_range 81) ?_ ?_ ?_
  · omega
  · show (getCell (setCell b r c BLANK) ((9 * r + c) / 9) ((9 * r + c) % 9) == BLANK) = true
    have h1 : (9 * r + c) / 9 = r ∧ (9 * r + c) % 9 = c := by omega
    rw [h1.1, h1.2, getCell_setCell_self hb hr hc]
    simp
  · show (getCell b ((9 * r + c) / 9) ((9 * r + c) % 9) == BLANK) = false
    have h1 : (9 * r + c) / 9 = r ∧ (9 * r + c) % 9 = c := by omega
    rw [h1.1, h1.2]
    simpa using hfull
  · intro j hj hji
    show (getCell b (j / 9) (j % 9) == BLANK) =
      (getCell (setCell b r c BLANK) (j / 9) (j % 9) == BLANK)
    have : ¬(r = j / 9 ∧ c = j % 9) := by
      intro ⟨h1, h2⟩
      exact hji (by omega)
    rw [getCell_setCell_ne hb hr hc _ this]

theorem countP_not_add (p : Nat → Bool) : ∀ l : List Nat,
    l.countP (fun i => !(p i)) + l.countP p = l.length
  | [] => rfl
  | a :: t => by
    rw [List.countP_cons, List.countP_cons, List.length_cons]
    have := countP_not_add p t
    cases hpa : p a <;> simp [hpa] <;> omega

theorem countFilled_add_countBlank (b : Board) : countFilled b + countBlank b = 81 := by
  unfold countFilled countBlank
  have h := countP_not_add (fun i => getCell b (i / 9) (i % 9) == BLANK) (List.range 81)
  simpa using h

theorem countBlank_eq_zero {b : Board} (h : ∀ r c, r < 9 → c < 9 → getCell b r c ≠ BLANK) :
    countBlank b = 0 := by
  unfold countBlank
  rw [List.countP_eq_zero]
  intro i hi
  have hi81 : i < 81 := List.mem_range.mp hi
  simpa using h (i / 9) (i % 9) (by omega) (by omega)

/-! ## Consistent partial boards -/

theorem mem_digits {x : Nat} : x ∈ digits ↔ 1 ≤ x ∧ x ≤ 9 := by
  simp [digits]
  omega

/-- Placing a digit that `isSafe` accepts at a blank cell keeps the board
consistent. -/
theorem consistent_setCell {b : Board} (hb : shaped b) (hcons : consistent b)
    {r c n : Nat} (hr : r < 9) (hc : c < 9) (hn9 : n ≤ 9)
    (hblank : getCell b r c = BLANK) (hsafe : isSafe b r c n = true) :
    consistent (setCell b r c n) := by
  obtain ⟨hle, hrow, hcol, hbox⟩ := hcons
  obtain ⟨hsr, hsc, hsb⟩ := (isSafe_iff b r c n).mp hsafe
  have hbox3 : ∀ r₂ c₂, r₂ < 9 → c₂ < 9 → r₂ / 3 = r / 3 → c₂ / 3 = c / 3 →
      getCell b r₂ c₂ ≠ n := by
    intro r₂ c₂ hr2 hc2 hrb hcb
    have h1 : r₂ % 3 + (r - r % 3) = r₂ := by omega
    have h2 : c₂ % 3 + (c - c % 3) = c₂ := by omega
    have := hsb (r₂ % 3) (c₂ % 3) (by omega) (by omega)
    rwa [h1, h2] at this
  have hget : ∀ r' c', getCell (setCell b r c n) r' c' =
      if r = r' ∧ c = c' then n else getCell b r' c' := getCell_setCell hb hr hc n
  refine ⟨?_, ?_, ?_, ?_⟩
  · intro r' c' hr' hc'
    rw [hget]
    split
    · exact hn9
    · exact hle r' c' hr' hc'
  · intro r' c₁ c₂ hr' hc1 hc2 hne hnz
    rw [hget] at hnz ⊢
    rw [hget]
    split
    · next h1 =>
      obtain ⟨rfl, rfl⟩ := h1
      split
      · next h2 => exact absurd h2.2 hne
      · next h2 =>
        have := hsr c₂ hc2
        exact fun hcontra => this hcontra.symm
    · next h1 =>
      rw [if_neg h1] at hnz
      split
      · next h2 =>
        obtain ⟨rfl, rfl⟩ := h2
        exact fun hcontra => (hsr c₁ hc1) hcontra
      · next h2 => exact hrow r' c₁ c₂ hr' hc1 hc2 hne hnz
  · intro r₁ r₂ c' hr1 hr2 hc' hne hnz
    rw [hget] at hnz ⊢
    rw [hget]
    split
    · next h1 =>
      obtain ⟨rfl, rfl⟩ := h1
      split
      · next h2 => exact absurd h2.1 hne
      · next h2 =>
        have := hsc r₂ hr2
        exact fun hcontra => this hcontra.symm
    · next h1 =>
      rw [if_neg h1] at hnz
      split
      · next h2 =>
        obtain ⟨rfl, rfl⟩ := h2
        exact fun hcontra => (hsc r₁ hr1) hcontra
      · next h2 => exact hcol r₁ r₂ c' hr1 hr2 hc' hne hnz
  · intro r₁ c₁ r₂ c₂ hr1 hc1 hr2 hc2 hbr hbc hne hnz
    rw [hget] at hnz ⊢
    rw [hget]
    split
    · next h1 =>
      obtain ⟨rfl, rfl⟩ := h1
      split
      · next h2 =>
        obtain ⟨rfl, rfl⟩ := h2
        exact absurd rfl hne
      · next h2 =>
        have := hbox3 r₂ c₂ hr2 hc2 (by omega) (by omega)
        exact fun hcontra => this hcontra.symm
    · next h1 =>
      rw [if_neg h1] at hnz
      split
      · next h2 =>
        obtain ⟨rfl, rfl⟩ := h2
        exact fun hcontra => (hbox3 r₁ c₁ hr1 hc1 (by omega) (by omega)) hcontra
      · next h2 => exact hbox r₁ c₁ r₂ c₂ hr1 hc1 hr2 hc2 hbr hbc hne hnz

/-- A map over `range 9` that is injective with values among 1-9 is a
permutation of `digits`. -/
theorem perm_digits_of {f : Nat → Nat}
    (hinj : ∀ i j, i < 9 → j < 9 → i ≠ j → f i ≠ f j)
    (hmem : ∀ i, i < 9 → f i ∈ digits) : ((List.range 9).map f).Perm digits := by
  have hnd : ((List.range 9).map f).Nodup := by
    refine List.Nodup.map_on ?_ (List.nodup_range 9)
    intro x hx y hy hfxy
    by_contra hxy
    exact hinj x y (List.mem_range.mp hx) (List.mem_range.mp hy) hxy hfxy
  have hsub : ((List.range 9).map f) ⊆ digits := by
    intro x hx
    obtain ⟨i, hi, rfl⟩ := List.mem_map.mp hx
    exact hmem i (List.mem_range.mp hi)
  exact (List.subperm_of_subset hnd hsub).perm_of_length_le (by simp [digits])

theorem unitOK_of_perm {l : List Nat} (h : l.Perm digits) : unitOK l = true := by
  unfold unitOK
  rw [List.all_eq_true]
  intro d hd
  rw [beq_iff_eq, h.count_eq]
  fin_cases hd <;> rfl

/-- A consistent, fully filled, shaped board is a valid solution. -/
theorem validBoard_of_consistent {b : Board} (hb : shaped b) (hcons : consistent b)
    (hnb : ∀ r c, r < 9 → c < 9 → getCell b r c ≠ BLANK) : validBoard b = true := by
  obtain ⟨hle, hrow, hcol, hbox⟩ := hcons
  have hdig : ∀ r c, r < 9 → c < 9 → getCell b r c ∈ digits := by
    intro r c hr hc
    rw [mem_digits]
    have h1 := hle r c hr hc
    have h2 := hnb r c hr hc
    unfold BLANK at h2
    omega
  unfold validBoard
  simp only [Bool.and_eq_true, List.all_eq_true, List.mem_range]
  refine ⟨⟨?_, ?_⟩, ?_⟩
  · intro r hr
    refine unitOK_of_perm (perm_digits_of ?_ ?_)
    · intro i j hi hj hij
      exact hrow r i j hr hi hj hij (hnb r i hr hi)
    · intro i hi
      exact hdig r i hr hi
  · intro c hc
    refine unitOK_of_perm (perm_digits_of ?_ ?_)
    · intro i j hi hj hij
      exact hcol i j c hi hj hc hij (hnb i c hi hc)
    · intro i hi
      exact hdig i c hi hc
  · intro bi hbi bj hbj
    refine unitOK_of_perm (perm_digits_of ?_ ?_)
    · intro i j hi hj hij
      refine hbox (3 * bi + i / 3) (3 * bj + i % 3) (3 * bi + j / 3) (3 * bj + j % 3)
        (by omega) (by omega) (by omega) (by omega) (by omega) (by omega) ?_
        (hnb _ _ (by omega) (by omega))
      intro hpair
      have h1 : 3 * bi + i / 3 = 3 * bi + j / 3 := congrArg Prod.fst hpair
      have h2 : 3 * bj + i % 3 = 3 * bj + j % 3 := congrArg Prod.snd hpair
      omega
    · intro i hi
      exact hdig _ _ (by omega) (by omega)

/-! ## Solver: failure restores the board -/

theorem solveAux_restore (rs : Nat → List Nat) : ∀ fuel, ∀ b k, shaped b →
    (solveAux rs fuel b k).1 = false → (solveAux rs fuel b k).2.1 = b := by
  intro fuel
  induction fuel with
  | zero => intro b k _ _; rfl
  | succ g ih =>
    have htry : ∀ nums b k r c, shaped b → r < 9 → c < 9 → getCell b r c = BLANK →
        (tryNums (solveAux rs g) b r c nums k).1 = false →
        (tryNums (solveAux rs g) b r c nums k).2.1 = b := by
      intro nums
      induction nums with
      | nil => intro b k r c _ _ _ _ _; rfl
      | cons n rest ihn =>
        intro b k r c hb hr hc hblank hfail
        rw [tryNums] at hfail ⊢
        by_cases hsafe : isSafe b r c n = true
        · rw [if_pos hsafe] at hfail ⊢
          rcases hres : solveAux rs g (setCell b r c n) k with ⟨_ | _, b2, k2⟩
          · have hok : (solveAux rs g (setCell b r c n) k).1 = false := by rw [hres]
            have hb2 : b2 = setCell b r c n := by
              have := ih (setCell b r c n) k (shaped_setCell hb r c n) hok
              rwa [hres] at this
            rw [hres] at hfail
            simp only at hfail
            show (tryNums (solveAux rs g) (setCell b2 r c BLANK) r c rest k2).2.1 = b
            rw [hb2, setCell_setCell hb hr, setCell_cancel hb hr hc hblank] at hfail ⊢
            exact ihn b k2 r c hb hr hc hblank hfail
          · rw [hres] at hfail
            simp at hfail
        · rw [if_neg hsafe] at hfail ⊢
          exact ihn b k r c hb hr hc hblank hfail
    intro b k hb hfail
    revert hfail
    rw [solveAux]
    cases hfb : findBlank b with
    | none =>
      intro hfail
      simp at hfail
    | some rc =>
      obtain ⟨r, c⟩ := rc
      intro hfail
      obtain ⟨hr, hc, hblank⟩ := findBlank_some hfb
      exact htry (rs k) b (k + 1) r c hb hr hc hblank hfail

/-! ## Solver soundness: success yields a shaped, consistent, fully
filled board -/

theorem solveAux_sound (rs : Nat → List Nat) (hrs : ∀ m, ∀ n ∈ rs m, n ≤ 9) :
    ∀ fuel, ∀ b k, shaped b → consistent b → (solveAux rs fuel b k).1 = true →
      shaped (solveAux rs fuel b k).2.1 ∧ consistent (solveAux rs fuel b k).2.1 ∧
      findBlank (solveAux rs fuel b k).2.1 = none := by
  intro fuel
  induction fuel with
  | zero =>
    intro b k _ _ hok
    simp [solveAux] at hok
  | succ g ih =>
    have htry : ∀ nums, (∀ n ∈ nums, n ≤ 9) → ∀ b k r c, shaped b → consistent b →
        r < 9 → c < 9 → getCell b r c = BLANK →
        (tryNums (solveAux rs g) b r c nums k).1 = true →
        shaped (tryNums (solveAux rs g) b r c nums k).2.1 ∧
        consistent (tryNums (solveAux rs g) b r c nums k).2.1 ∧
        findBlank (tryNums (solveAux rs g) b r c nums k).2.1 = none := by
      intro nums
      induction nums with
      | nil =>
        intro _ b k r c _ _ _ _ _ hok
        simp [tryNums] at hok
      | cons n rest ihn =>
        intro hnums b k r c hb hcons hr hc hblank hok
        have hn9 : n ≤ 9 := hnums n (by simp)
        have hrest9 : ∀ m ∈ rest, m ≤ 9 := fun m hm => hnums m (by simp [hm])
        rw [tryNums] at hok ⊢
        by_cases hsafe : isSafe b r c n = true
        · rw [if_pos hsafe] at hok ⊢
          have hbs : shaped (setCell b r c n) := shaped_setCell hb r c n
          have hcs : consistent (setCell b r c n) :=
            consistent_setCell hb hcons hr hc hn9 hblank hsafe
          rcases hres : solveAux rs g (setCell b r c n) k with ⟨_ | _, b2, k2⟩
          · have hok2 : (solveAux rs g (setCell b r c n) k).1 = false := by rw [hres]
            have hb2 : b2 = setCell b r c n := by
              have := solveAux_restore rs g (setCell b r c n) k hbs hok2
              rwa [hres] at this
            rw [hres] at hok
            simp only at hok
            show shaped (tryNums (solveAux rs g) (setCell b2 r c BLANK) r c rest k2).2.1 ∧
              consistent (tryNums (solveAux rs g) (setCell b2 r c BLANK) r c rest k2).2.1 ∧
              findBlank (tryNums (solveAux rs g) (setCell b2 r c BLANK) r c rest k2).2.1 = none
            rw [hb2, setCell_setCell hb hr, setCell_cancel hb hr hc hblank] at hok ⊢
            exact ihn hrest9 b k2 r c hb hcons hr hc hblank hok
          · have := ih (setCell b r c n) k hbs hcs (by rw [hres])
            rw [hres] at this
            exact this
        · rw [if_neg hsafe] at hok ⊢
          exact ihn hrest9 b k r c hb hcons hr hc hblank hok
    intro b k hb hcons hok
    revert hok
    rw [solveAux]
    cases hfb : findBlank b with
    | none =>
      intro _
      exact ⟨hb, hcons, hfb⟩
    | some rc =>
      obtain ⟨r, c⟩ := rc
      intro hok
      obtain ⟨hr, hc, hblank⟩ := findBlank_some hfb
      exact htry (rs k) (hrs k) b (k + 1) r c hb hcons hr hc hblank hok

/-! ## Solver completeness: if some full solution extends the board, the
backtracking search finds one -/

theorem isSafe_of_extends {b bf : Board} (hext : extendsTo b bf) (hbf : fullSolution bf)
    {r c : Nat} (hr : r < 9) (hc : c < 9) (hblank : getCell b r c = BLANK) :
    isSafe b r c (getCell bf r c) = true := by
  obtain ⟨hbfs, ⟨hle, hrow, hcol, hbox⟩, hnb⟩ := hbf
  set d := getCell bf r c with hd
  have hd0 : d ≠ BLANK := hnb r c hr hc
  rw [isSafe_iff]
  refine ⟨?_, ?_, ?_⟩
  · intro x hx hcontra
    have hxc : x ≠ c := by
      intro h
      rw [h, hblank] at hcontra
      exact hd0 hcontra.symm
    have hbfx : getCell bf r x = d := by
      rw [hext r x hr hx (by rw [hcontra]; exact hd0), hcontra]
    exact hrow r x c hr hx hc hxc (by rw [hbfx]; exact hd0) (by rw [hbfx])
  · intro x hx hcontra
    have hxr : x ≠ r := by
      intro h
      rw [h, hblank] at hcontra
      exact hd0 hcontra.symm
    have hbfx : getCell bf x c = d := by
      rw [hext x c hx hc (by rw [hcontra]; exact hd0), hcontra]
    exact hcol x r c hx hr hc hxr (by rw [hbfx]; exact hd0) (by rw [hbfx])
  · intro i j hi hj hcontra
    set r' := i + (r - r % 3) with hr'
    set c' := j + (c - c % 3) with hc'
    have hr'9 : r' < 9 := by omega
    have hc'9 : c' < 9 := by omega
    have hne : (r', c') ≠ (r, c) := by
      intro h
      have h1 : r' = r := congrArg Prod.fst h
      have h2 : c' = c := congrArg Prod.snd h
      rw [h1, h2, hblank] at hcontra
      exact hd0 hcontra.symm
    have hbfx : getCell bf r' c' = d := by
      rw [hext r' c' hr'9 hc'9 (by rw [hcontra]; exact hd0), hcontra]
    refine hbox r' c' r c hr'9 hc'9 hr hc (by omega) (by omega) hne
      (by rw [hbfx]; exact hd0) (by rw [hbfx])

theorem extendsTo_setCell {b bf : Board} (hb : shaped b) (hext : extendsTo b bf)
    {r c : Nat} (hr : r < 9) (hc : c < 9) :
    extendsTo (setCell b r c (getCell bf r c)) bf := by
  intro r' c' hr' hc' hnz
  rw [getCell_setCell hb hr hc] at hnz ⊢
  split
  · next h => obtain ⟨rfl, rfl⟩ := h; rfl
  · next h =>
    rw [if_neg h] at hnz
    exact hext r' c' hr' hc' hnz

theorem countBlank_setCell_fill {b : Board} (hb : shaped b) {r c d : Nat} (hr : r < 9)
    (hc : c < 9) (hblank : getCell b r c = BLANK) (hd : d ≠ BLANK) :
    countBlank (setCell b r c d) + 1 = countBlank b := by
  unfold countBlank
  refine @countP_succ_of_flip _ _ (List.range 81) (9 * r + c)
    (List.mem_range.mpr (by omega)) (List.nodup_range 81) ?_ ?_ ?_
  · show (getCell b ((9 * r + c) / 9) ((9 * r + c) % 9) == BLANK) = true
    have h1 : (9 * r + c) / 9 = r ∧ (9 * r + c) % 9 = c := by omega
    rw [h1.1, h1.2, hblank]
    simp
  · show (getCell (setCell b r c d) ((9 * r + c) / 9) ((9 * r + c) % 9) == BLANK) = false
    have h1 : (9 * r + c) / 9 = r ∧ (9 * r + c) % 9 = c := by omega
    rw [h1.1, h1.2, getCell_setCell_self hb hr hc]
    simpa using hd
  · intro j hj hji
    show (getCell (setCell b r c d) (j / 9) (j % 9) == BLANK) =
      (getCell b (j / 9) (j % 9) == BLANK)
    have : ¬(r = j / 9 ∧ c = j % 9) := by
      intro ⟨h1, h2⟩
      exact hji (by omega)
    rw [getCell_setCell_ne hb hr hc _ this]

theorem solveAux_complete (rs : Nat → List Nat) (hrs : ∀ m, (rs m).Perm digits)
    {bf : Board} (hbf : fullSolution bf) :
    ∀ fuel b k, shaped b → countBlank b < fuel → extendsTo b bf →
      (solveAux rs fuel b k).1 = true := by
  intro fuel
  induction fuel with
  | zero => intro b k _ hcount _; omega
  | succ g ih =>
    intro b k hb hcount hext
    rw [solveAux]
    cases hfb : findBlank b with
    | none => rfl
    | some rc =>
      obtain ⟨r, c⟩ := rc
      obtain ⟨hr, hc, hblank⟩ := findBlank_some hfb
      have hd0 : getCell bf r c ≠ BLANK := hbf.2.2 r c hr hc
      have hd9 : getCell bf r c ≤ 9 := hbf.2.1.1 r c hr hc
      have hdmem : getCell bf r c ∈ rs k := by
        rw [(hrs k).mem_iff, mem_digits]
        unfold BLANK at hd0
        omega
      have htry : ∀ nums k₀, getCell bf r c ∈ nums →
          (tryNums (solveAux rs g) b r c nums k₀).1 = true := by
        intro nums
        induction nums with
        | nil => intro k₀ hmem; simp at hmem
        | cons n rest ihn =>
          intro k₀ hmem
          rw [tryNums]
          by_cases hnd : n = getCell bf r c
          · subst hnd
            have hsafe := isSafe_of_extends hext hbf hr hc hblank
            rw [if_pos hsafe]
            have hlt : countBlank (setCell b r c (getCell bf r c)) < g := by
              have := countBlank_setCell_fill hb hr hc hblank hd0
              omega
            have hsolved := ih (setCell b r c (getCell bf r c)) k₀
              (shaped_setCell hb r c _) hlt (extendsTo_setCell hb hext hr hc)
            rcases hres : solveAux rs g (setCell b r c (getCell bf r c)) k₀
              with ⟨_ | _, b2, k2⟩
            · rw [hres] at hsolved
              simp at hsolved
            · rfl
          · have hmemr : getCell bf r c ∈ rest := by
              rcases List.mem_cons.mp hmem with h | h
              · exact absurd h.symm hnd
              · exact h
            by_cases hsafe : isSafe b r c n = true
            · rw [if_pos hsafe]
              rcases hres : solveAux rs g (setCell b r c n) k₀ with ⟨_ | _, b2, k2⟩
              · have hok2 : (solveAux rs g (setCell b r c n) k₀).1 = false := by rw [hres]
                have hb2 : b2 = setCell b r c n := by
                  have := solveAux_restore rs g (setCell b r c n) k₀
                    (shaped_setCell hb r c n) hok2
                  rwa [hres] at this
                show (tryNums (solveAux rs g) (setCell b2 r c BLANK) r c rest k2).1 = true
                rw [hb2, setCell_setCell hb hr, setCell_cancel hb hr hc hblank]
                exact ihn k2 hmemr
              · rfl
            · rw [if_neg hsafe]
              exact ihn k₀ hmemr
      exact htry (rs k) (k + 1) hdmem

/-! ## A completion always exists once row 0 holds a permutation of 1-9 -/

theorem patIdx_lt (r c : Nat) : patIdx r c < 9 := by
  unfold patIdx
  omega

theorem patIdx_row_inj : ∀ r < 9, ∀ c₁ < 9, ∀ c₂ < 9, c₁ ≠ c₂ →
    patIdx r c₁ ≠ patIdx r c₂ := by
  intro r hr c₁ hc1 c₂ hc2 hne
  unfold patIdx
  omega

theorem patIdx_col_inj : ∀ c < 9, ∀ r₁ < 9, ∀ r₂ < 9, r₁ ≠ r₂ →
    patIdx r₁ c ≠ patIdx r₂ c := by
  intro c hc r₁ hr1 r₂ hr2 hne
  unfold patIdx
  omega

theorem patIdx_box_inj : ∀ r₁ < 9, ∀ c₁ < 9, ∀ r₂ < 9, ∀ c₂ < 9,
    r₁ / 3 = r₂ / 3 → c₁ / 3 = c₂ / 3 → (r₁ ≠ r₂ ∨ c₁ ≠ c₂) →
    patIdx r₁ c₁ ≠ patIdx r₂ c₂ := by
  intro r₁ hr1 c₁ hc1 r₂ hr2 c₂ hc2 hbr hbc hne
  unfold patIdx
  rcases hne with hne | hne <;> omega

theorem shaped_patternBoard (fr : List Nat) : shaped (patternBoard fr) := by
  constructor
  · simp [patternBoard]
  · intro row hrow
    simp only [patternBoard, List.mem_map] at hrow
    obtain ⟨r, _, rfl⟩ := hrow
    simp

theorem getCell_patternBoard (fr : List Nat) {r c : Nat} (hr : r < 9) (hc : c < 9) :
    getCell (patternBoard fr) r c = fr.getD (patIdx r c) 0 := by
  simp [getCell, patternBoard, List.getD_eq_getElem?_getD, List.getElem?_map,
    List.getElem?_range, hr, hc]

theorem fullSolution_patternBoard {fr : List Nat} (hfr : fr.Perm digits) :
    fullSolution (patternBoard fr) := by
  have hlen : fr.length = 9 := hfr.length_eq.trans rfl
  have hnd : fr.Nodup := hfr.nodup_iff.mpr (by decide)
  have hmem : ∀ i, i < 9 → fr.getD i 0 ∈ digits := by
    intro i hi
    rw [List.getD_eq_getElem _ _ (by omega)]
    exact hfr.mem_iff.mp (fr.getElem_mem (by omega))
  have hinj : ∀ i j, i < 9 → j < 9 → i ≠ j → fr.getD i 0 ≠ fr.getD j 0 := by
    intro i j hi hj hij
    rw [List.getD_eq_getElem _ _ (by omega), List.getD_eq_getElem _ _ (by omega)]
    rw [Ne, hnd.getElem_inj_iff]
    exact hij
  have hnz : ∀ r c, r < 9 → c < 9 → getCell (patternBoard fr) r c ≠ BLANK := by
    intro r c hr hc
    rw [getCell_patternBoard fr hr hc]
    have := mem_digits.mp (hmem _ (patIdx_lt r c))
    unfold BLANK
    omega
  refine ⟨shaped_patternBoard fr, ⟨?_, ?_, ?_, ?_⟩, hnz⟩
  · intro r c hr hc
    rw [getCell_patternBoard fr hr hc]
    exact (mem_digits.mp (hmem _ (patIdx_lt r c))).2
  · intro r c₁ c₂ hr hc1 hc2 hne _
    rw [getCell_patternBoard fr hr hc1, getCell_patternBoard fr hr hc2]
    exact hinj _ _ (patIdx_lt r c₁) (patIdx_lt r c₂) (patIdx_row_inj r hr c₁ hc1 c₂ hc2 hne)
  · intro r₁ r₂ c hr1 hr2 hc hne _
    rw [getCell_patternBoard fr hr1 hc, getCell_patternBoard fr hr2 hc]
    exact hinj _ _ (patIdx_lt r₁ c) (patIdx_lt r₂ c) (patIdx_col_inj c hc r₁ hr1 r₂ hr2 hne)
  · intro r₁ c₁ r₂ c₂ hr1 hc1 hr2 hc2 hbr hbc hne _
    rw [getCell_patternBoard fr hr1 hc1, getCell_patternBoard fr hr2 hc2]
    have hne' : r₁ ≠ r₂ ∨ c₁ ≠ c₂ := by
      by_contra h
      push_neg at h
      exact hne (by rw [h.1, h.2])
    exact hinj _ _ (patIdx_lt r₁ c₁) (patIdx_lt r₂ c₂)
      (patIdx_box_inj r₁ hr1 c₁ hc1 r₂ hr2 c₂ hc2 hbr hbc hne')

/-! ## The seeded board of `generateFullBoard` -/

theorem getCell_seed {fr : List Nat} (hlen : fr.length = 9) (r c : Nat) :
    getCell (getEmptyBoard.set 0 fr) r c =
      if r = 0 ∧ c < 9 then fr.getD c 0 else 0 := by
  rcases eq_or_ne r 0 with rfl | hr0
  · have h1 : (getEmptyBoard.set 0 fr).getD 0 [] = fr := by
      rw [List.getD_eq_getElem _ _ (by simp [getEmptyBoard]), List.getElem_set_self]
    rcases Nat.lt_or_ge c 9 with hc | hc
    · rw [getCell, h1, if_pos ⟨rfl, hc⟩]
    · rw [getCell, h1, if_neg (by omega)]
      exact List.getD_eq_default _ _ (by omega)
  · rw [getCell, if_neg (by simp [hr0])]
    rcases Nat.lt_or_ge r 9 with hr | hr
    · have h1 : (getEmptyBoard.set 0 fr).getD r [] = List.replicate 9 BLANK := by
        rw [List.getD_eq_getElem _ _ (by simp [getEmptyBoard]; omega),
          List.getElem_set_ne (by omega)]
        exact List.eq_of_mem_replicate (List.getElem_mem _)
      rw [h1]
      rcases Nat.lt_or_ge c 9 with hc | hc
      · rw [List.getD_eq_getElem _ _ (by simp; omega)]
        exact List.eq_of_mem_replicate (List.getElem_mem _)
      · exact List.getD_eq_default _ _ (by simp; omega)
    · have h1 : (getEmptyBoard.set 0 fr).getD r [] = [] := by
        apply List.getD_eq_default
        simp [getEmptyBoard]
        omega
      rw [h1]
      cases c <;> rfl

theorem shaped_seed {fr : List Nat} (hlen : fr.length = 9) :
    shaped (getEmptyBoard.set 0 fr) := by
  refine ⟨by simp [getEmptyBoard], ?_⟩
  intro row hrow
  rcases List.mem_or_eq_of_mem_set hrow with h | h
  · simp only [getEmptyBoard] at h
    rw [List.eq_of_mem_replicate h]
    simp
  · rw [h]; exact hlen

theorem consistent_seed {fr : List Nat} (hfr : fr.Perm digits) :
    consistent (getEmptyBoard.set 0 fr) := by
  have hlen : fr.length = 9 := hfr.length_eq.trans rfl
  have hnd : fr.Nodup := hfr.nodup_iff.mpr (by decide)
  have hmem : ∀ i, i < 9 → fr.getD i 0 ∈ digits := by
    intro i hi
    rw [List.getD_eq_getElem _ _ (by omega)]
    exact hfr.mem_iff.mp (fr.getElem_mem (by omega))
  have hinj : ∀ i j, i < 9 → j < 9 → i ≠ j → fr.getD i 0 ≠ fr.getD j 0 := by
    intro i j hi hj hij
    rw [List.getD_eq_getElem _ _ (by omega), List.getD_eq_getElem _ _ (by omega)]
    rw [Ne, hnd.getElem_inj_iff]
    exact hij
  have hget := getCell_seed hlen
  refine ⟨?_, ?_, ?_, ?_⟩
  · intro r c hr hc
    rw [hget]
    split
    · next h => exact (mem_digits.mp (hmem c h.2)).2
    · exact Nat.zero_le 9
  · intro r c₁ c₂ hr hc1 hc2 hne hnz
    rw [hget] at hnz ⊢
    rw [hget]
    split at hnz
    · next h =>
      obtain ⟨rfl, -⟩ := h
      rw [if_pos ⟨rfl, hc1⟩, if_pos ⟨rfl, hc2⟩]
      exact hinj c₁ c₂ hc1 hc2 hne
    · exact absurd rfl hnz
  · intro r₁ r₂ c hr1 hr2 hc hne hnz
    rw [hget] at hnz ⊢
    rw [hget]
    split at hnz
    · next h =>
      obtain ⟨rfl, -⟩ := h
      rw [if_pos ⟨rfl, hc⟩, if_neg (by simp [Ne.symm hne])]
      have := mem_digits.mp (hmem c hc)
      omega
    · exact absurd rfl hnz
  · intro r₁ c₁ r₂ c₂ hr1 hc1 hr2 hc2 hbr hbc hne hnz
    rw [hget] at hnz ⊢
    rw [hget]
    split at hnz
    · next h =>
      obtain ⟨rfl, -⟩ := h
      rw [if_pos ⟨rfl, hc1⟩]
      rcases eq_or_ne r₂ 0 with rfl | hr20
      · have hcc : c₁ ≠ c₂ := by
          intro h
          exact hne (by rw [h])
        rw [if_pos ⟨rfl, hc2⟩]
        exact hinj c₁ c₂ hc1 hc2 hcc
      · rw [if_neg (by simp [hr20])]
        have := mem_digits.mp (hmem c₁ hc1)
        omega
    · exact absurd rfl hnz

theorem extendsTo_seed {fr : List Nat} (hlen : fr.length = 9) :
    extendsTo (getEmptyBoard.set 0 fr) (patternBoard fr) := by
  intro r c hr hc hnz
  rw [getCell_seed hlen] at hnz ⊢
  split at hnz
  · next h =>
    obtain ⟨rfl, -⟩ := h
    rw [if_pos ⟨rfl, hc⟩, getCell_patternBoard fr (by omega) hc]
    congr 1
    unfold patIdx
    omega
  · exact absurd rfl hnz

/-! ## Main generation facts -/

theorem le_of_perm_digits {rs : Nat → List Nat} (hrs : ∀ k, (rs k).Perm digits) :
    ∀ m, ∀ n ∈ rs m, n ≤ 9 := by
  intro m n hn
  exact (mem_digits.mp ((hrs m).mem_iff.mp hn)).2

/-- The top-level `solveSudoku` call inside `generateFullBoard` always
succeeds: the seeded first row is a permutation of 1-9, the shifted pattern
board completes it, and the exhaustive backtracking search finds a
completion whenever one exists. -/
theorem solveSudoku_seed {fr : List Nat} {rs : Nat → List Nat}
    (hfr : fr.Perm digits) (hrs : ∀ k, (rs k).Perm digits) :
    (solveSudoku rs (getEmptyBoard.set 0 fr) 0).1 = true := by
  have hlen : fr.length = 9 := hfr.length_eq.trans rfl
  refine solveAux_complete rs hrs (fullSolution_patternBoard hfr) 82 _ 0
    (shaped_seed hlen) ?_ (extendsTo_seed hlen)
  have h : countBlank (getEmptyBoard.set 0 fr) ≤ 81 := by
    have h2 : countBlank (getEmptyBoard.set 0 fr) ≤ (List.range 81).length :=
      List.countP_le_length
        (fun i => getCell (getEmptyBoard.set 0 fr) (i / 9) (i % 9) == BLANK)
    simpa using h2
  omega

theorem generateFullBoard_props {fr : List Nat} {rs : Nat → List Nat}
    (hfr : fr.Perm digits) (hrs : ∀ k, (rs k).Perm digits) :
    shaped (generateFullBoard fr rs) ∧ consistent (generateFullBoard fr rs) ∧
      ∀ r c, r < 9 → c < 9 → getCell (generateFullBoard fr rs) r c ≠ BLANK := by
  have hlen : fr.length = 9 := hfr.length_eq.trans rfl
  have hsound := solveAux_sound rs (le_of_perm_digits hrs) 82 (getEmptyBoard.set 0 fr) 0
    (shaped_seed hlen) (consistent_seed hfr) (solveSudoku_seed hfr hrs)
  exact ⟨hsound.1, hsound.2.1, findBlank_none hsound.2.2⟩

/-- Every solution board produced by `generateFullBoard` is a fully valid
Sudoku grid. -/
theorem validBoard_generateFullBoard {fr : List Nat} {rs : Nat → List Nat}
    (hfr : fr.Perm digits) (hrs : ∀ k, (rs k).Perm digits) :
    validBoard (generateFullBoard fr rs) = true := by
  obtain ⟨h1, h2, h3⟩ := generateFullBoard_props hfr hrs
  exact validBoard_of_consistent h1 h2 h3

/-! ## The removal loop -/

theorem removeCells_spec (ps : Nat → Fin 9 × Fin 9) :
    ∀ fuel k b a out, shaped b → removeCells ps fuel k b a = some out →
      shaped out ∧
      (∀ r c, r < 9 → c < 9 → getCell out r c ≠ BLANK →
        getCell out r c = getCell b r c) ∧
      countBlank out = countBlank b + a := by
  intro fuel
  induction fuel with
  | zero =>
    intro k b a out hb h
    cases a with
    | zero =>
      obtain rfl : b = out := by simpa [removeCells] using h
      exact ⟨hb, fun r c _ _ _ => rfl, by omega⟩
    | succ a => simp [removeCells] at h
  | succ fuel ih =>
    intro k b a out hb h
    cases a with
    | zero =>
      obtain rfl : b = out := by simpa [removeCells] using h
      exact ⟨hb, fun r c _ _ _ => rfl, by omega⟩
    | succ a =>
      rw [removeCells] at h
      have hp1 : ((ps k).1 : Nat) < 9 := (ps k).1.isLt
      have hp2 : ((ps k).2 : Nat) < 9 := (ps k).2.isLt
      by_cases hnb : getCell b (ps k).1.val (ps k).2.val ≠ BLANK
      · rw [if_pos hnb] at h
        have hbs : shaped (setCell b (ps k).1.val (ps k).2.val BLANK) :=
          shaped_setCell hb _ _ _
        obtain ⟨h1, h2, h3⟩ := ih (k + 1) _ a out hbs h
        refine ⟨h1, ?_, ?_⟩
        · intro r c hr hc hnz
          have hcell := getCell_setCell hb hp1 hp2 BLANK r c
          by_cases heq : ((ps k).1.val = r ∧ (ps k).2.val = c)
          · exfalso
            rw [h2 r c hr hc hnz, hcell, if_pos heq] at hnz
            exact hnz rfl
          · rw [h2 r c hr hc hnz, hcell, if_neg heq]
        · rw [h3, countBlank_setCell hb hp1 hp2 hnb]
          omega
      · rw [if_neg hnb] at h
        obtain ⟨h1, h2, h3⟩ := ih (k + 1) b (a + 1) out hb h
        exact ⟨h1, h2, h3⟩

/-- Full characterization of a successful `generatePuzzle` run: the solution
is valid; every non-blank puzzle cell agrees with the solution; and exactly
`removalBudget d` cells were blanked. -/
theorem generatePuzzle_spec (d : Difficulty) {fr : List Nat} {rs : Nat → List Nat}
    (ps : Nat → Fin 9 × Fin 9) (fuel : Nat) {puz : Board}
    (hfr : fr.Perm digits) (hrs : ∀ k, (rs k).Perm digits)
    (hpz : (generatePuzzle d fr rs ps fuel).2 = some puz) :
    validBoard (generatePuzzle d fr rs ps fuel).1 = true ∧
      shaped puz ∧
      (∀ r c, r < 9 → c < 9 → getCell puz r c ≠ BLANK →
        getCell puz r c = getCell (generatePuzzle d fr rs ps fuel).1 r c) ∧
      countFilled puz = 81 - removalBudget d ∧
      countBlank puz = removalBudget d := by
  obtain ⟨hsh, hcons, hnb⟩ := generateFullBoard_props hfr hrs
  have hcb : countBlank (generateFullBoard fr rs) = 0 := countBlank_eq_zero hnb
  have hrem : removeCells ps fuel 0 (generateFullBoard fr rs) (removalBudget d) = some puz := hpz
  obtain ⟨h1, h2, h3⟩ := removeCells_spec ps fuel 0 _ (removalBudget d) puz hsh hrem
  have hcount : countBlank puz = removalBudget d := by omega
  have hfill : countFilled puz = 81 - removalBudget d := by
    have := countFilled_add_countBlank puz
    omega
  exact ⟨validBoard_generateFullBoard hfr hrs, h1, h2, hfill, hcount⟩

/-! ## Memo map lemmas -/

theorem lookupMemo_setMemo (ms : List ((Nat × Nat) × List Nat)) (key : Nat × Nat)
    (v : List Nat) (key2 : Nat × Nat) :
    lookupMemo (setMemo ms key v) key2 =
      if key2 = key then some v else lookupMemo ms key2 := by
  induction ms with
  | nil =>
    by_cases h : key2 = key
    · simp [setMemo, lookupMemo, h]
    · simp [setMemo, lookupMemo, h, Ne.symm h]
  | cons e ms ih =>
    by_cases he : e.1 = key
    · rw [setMemo]
      rw [if_pos he]
      by_cases h2 : key2 = key
      · simp [lookupMemo, h2]
      · rw [lookupMemo]
        rw [if_neg (by simpa [eq_comm] using h2), if_neg h2, lookupMemo,
          if_neg (by rw [he]; simpa [eq_comm] using h2)]
    · rw [setMemo, if_neg he, lookupMemo, lookupMemo]
      by_cases h3 : e.1 = key2
      · rw [if_pos h3, if_pos h3, if_neg (by rw [← h3]; exact he)]
      · rw [if_neg h3, if_neg h3, ih]

theorem lookupMemo_removeMemo (ms : List ((Nat × Nat) × List Nat)) (key key2 : Nat × Nat) :
    lookupMemo (removeMemo ms key) key2 =
      if key2 = key then none else lookupMemo ms key2 := by
  induction ms with
  | nil => simp [removeMemo, lookupMemo]
  | cons e ms ih =>
    by_cases he : e.1 = key
    · rw [removeMemo, if_pos he, ih, lookupMemo]
      by_cases h2 : key2 = key
      · rw [if_pos h2, if_pos h2]
      · rw [if_neg h2, if_neg h2, if_neg (by rw [he]; exact fun hh => h2 hh.symm)]
    · rw [removeMemo, if_neg he, lookupMemo, lookupMemo]
      by_cases h3 : e.1 = key2
      · rw [if_pos h3, if_pos h3, if_neg (by rw [← h3]; exact he)]
      · rw [if_neg h3, if_neg h3, ih]

/-- Completion check as a per-cell statement. -/
theorem checkCompletion_iff (b sol : Board) :
    checkCompletion b sol = true ↔
      ∀ r c, r < 9 → c < 9 → getCell b r c = getCell sol r c := by
  simp only [checkCompletion, GRID_SIZE, Bool.and_eq_true, List.all_eq_true,
    List.mem_range, beq_iff_eq]
  constructor
  · intro h r c hr hc
    exact h r hr c hc
  · intro h r hr c hc
    exact h r c hr hc

/-! ## The session invariant -/

theorem sorted_lt_of_le_nodup {l : List Nat} (hs : l.Sorted (· ≤ ·)) (hn : l.Nodup) :
    l.Sorted (· < ·) :=
  (List.Pairwise.and hs hn).imp fun h => Nat.lt_of_le_of_ne h.1 h.2

theorem nodup_of_sorted_lt {l : List Nat} (hs : l.Sorted (· < ·)) : l.Nodup :=
  hs.imp fun h => Nat.ne_of_lt h

theorem updateCompletion_board (s : Session) : (updateCompletion s).board = s.board := by
  unfold updateCompletion
  split <;> rfl

theorem updateCompletion_solution (s : Session) :
    (updateCompletion s).solution = s.solution := by
  unfold updateCompletion
  split <;> rfl

theorem updateCompletion_initialBoard (s : Session) :
    (updateCompletion s).initialBoard = s.initialBoard := by
  unfold updateCompletion
  split <;> rfl

theorem updateCompletion_selectedCell (s : Session) :
    (updateCompletion s).selectedCell = s.selectedCell := by
  unfold updateCompletion
  split <;> rfl

theorem updateCompletion_memos (s : Session) : (updateCompletion s).memos = s.memos := by
  unfold updateCompletion
  split <;> rfl

theorem updateCompletion_mistakes (s : Session) :
    (updateCompletion s).mistakes = s.mistakes := by
  unfold updateCompletion
  split <;> rfl

theorem updateCompletion_isMemoMode (s : Session) :
    (updateCompletion s).isMemoMode = s.isMemoMode := by
  unfold updateCompletion
  split <;> rfl

theorem updateCompletion_isComplete (s : Session) :
    (updateCompletion s).isComplete = (s.isComplete || checkCompletion s.board s.solution) := by
  unfold updateCompletion
  split
  · next h => simp [h]
  · next h => simp [Bool.eq_false_iff.mpr h]

theorem inv_selectCell {s : Session} (hs : Inv s) {r c : Nat} (hr : r < 9) (hc : c < 9) :
    Inv (selectCell s r c) := by
  obtain ⟨h1, h2, h3, h4, h5, h6, h7, h8⟩ := hs
  refine ⟨h1, h2, h3, h4, h5, h6, ?_, h8⟩
  intro p hp
  rw [selectCell] at hp
  simp only at hp
  obtain rfl : (r, c) = p := by simpa using hp
  exact ⟨hr, hc⟩

theorem inv_toggleMemoMode {s : Session} (hs : Inv s) : Inv (toggleMemoMode s) := hs

theorem inv_handleErase {s : Session} (hs : Inv s) : Inv (handleErase s) := by
  obtain ⟨h1, h2, h3, h4, h5, h6, h7, h8⟩ := hs
  unfold handleErase
  split
  · exact ⟨h1, h2, h3, h4, h5, h6, h7, h8⟩
  · next hncomp =>
    cases hselc : s.selectedCell with
    | none => exact ⟨h1, h2, h3, h4, h5, h6, h7, h8⟩
    | some rc =>
      obtain ⟨r, c⟩ := rc
      obtain ⟨hr, hc⟩ := h7 (r, c) hselc
      show Inv (if getCell s.initialBoard r c ≠ BLANK then s
        else { initialBoard := s.initialBoard, board := setCell s.board r c BLANK,
               solution := s.solution, selectedCell := some (r, c), memos := s.memos,
               isMemoMode := s.isMemoMode, mistakes := s.mistakes,
               isComplete := s.isComplete })
      split
      · exact ⟨h1, h2, h3, h4, h5, h6, h7, h8⟩
      · next hgiv =>
        have hgiv0 : getCell s.initialBoard r c = BLANK := by
          by_contra hcon
          exact hgiv hcon
        have hbfalse : s.isComplete = false := Bool.eq_false_iff.mpr hncomp
        refine ⟨shaped_setCell h1 r c BLANK, h2, h3, h4, ?_, ?_, ?_, h8⟩
        · intro r' c' hr' hc' hnz
          have hne : ¬(r = r' ∧ c = c') := by
            intro ⟨hh1, hh2⟩
            rw [← hh1, ← hh2] at hnz
            exact hnz hgiv0
          rw [getCell_setCell_ne h1 hr hc _ hne]
          exact h5 r' c' hr' hc' hnz
        · simp only [hbfalse]
          refine iff_of_false (by simp) ?_
          intro hall
          have hthis := hall r c hr hc
          rw [getCell_setCell_self h1 hr hc] at hthis
          have hd := (h4 r c hr hc).1
          unfold BLANK at hthis
          omega
        · intro p hp
          simp only at hp
          obtain rfl : (r, c) = p := by simpa using hp
          exact ⟨hr, hc⟩

/-! ## Branch equations for `handleNumberInput` -/

theorem handleNumberInput_eq_complete {s : Session} (num : Nat)
    (hcomp : s.isComplete = true) : handleNumberInput s num = s := by
  unfold handleNumberInput
  rw [if_pos hcomp]

theorem handleNumberInput_eq_noSel {s : Session} (num : Nat)
    (hcomp : s.isComplete = false) (hsel : s.selectedCell = none) :
    handleNumberInput s num = s := by
  unfold handleNumberInput
  simp [hcomp, hsel]

theorem handleNumberInput_eq_given {s : Session} {num r c : Nat}
    (hcomp : s.isComplete = false) (hsel : s.selectedCell = some (r, c))
    (hgiv : getCell s.initialBoard r c ≠ BLANK) :
    handleNumberInput s num = s := by
  unfold handleNumberInput
  simp [hcomp, hsel, hgiv]

theorem handleNumberInput_eq_memo {s : Session} {num r c : Nat}
    (hcomp : s.isComplete = false) (hsel : s.selectedCell = some (r, c))
    (hgiv : getCell s.initialBoard r c = BLANK) (hmode : s.isMemoMode = true) :
    handleNumberInput s num = { s with memos :=
      (setMemo s.memos (r, c) (memoToggleList ((lookupMemo s.memos (r, c)).getD []) num)) } := by
  unfold handleNumberInput
  simp [hcomp, hsel, hgiv, hmode]

theorem handleNumberInput_eq_toggleOff {s : Session} {num r c : Nat}
    (hcomp : s.isComplete = false) (hsel : s.selectedCell = some (r, c))
    (hgiv : getCell s.initialBoard r c = BLANK) (hmode : s.isMemoMode = false)
    (hcell : getCell s.board r c = num) :
    handleNumberInput s num = updateCompletion { s with board := setCell s.board r c BLANK } := by
  unfold handleNumberInput
  simp [hcomp, hsel, hgiv, hmode, hcell]

theorem handleNumberInput_eq_wrong {s : Session} {num r c : Nat}
    (hcomp : s.isComplete = false) (hsel : s.selectedCell = some (r, c))
    (hgiv : getCell s.initialBoard r c = BLANK) (hmode : s.isMemoMode = false)
    (hcell : getCell s.board r c ≠ num) (hwrong : num ≠ getCell s.solution r c) :
    handleNumberInput s num = updateCompletion
      { s with board := setCell s.board r c num, mistakes := s.mistakes + 1 } := by
  unfold handleNumberInput
  simp [hcomp, hsel, hgiv, hmode, hcell, hwrong]

theorem handleNumberInput_eq_right {s : Session} {num r c : Nat}
    (hcomp : s.isComplete = false) (hsel : s.selectedCell = some (r, c))
    (hgiv : getCell s.initialBoard r c = BLANK) (hmode : s.isMemoMode = false)
    (hcell : getCell s.board r c ≠ num) (hright : num = getCell s.solution r c) :
    handleNumberInput s num = updateCompletion
      { s with board := setCell s.board r c num,
               memos := removeMemo s.memos (r, c) } := by
  unfold handleNumberInput
  have h2 : ¬(num ≠ getCell s.solution r c) := fun hh => hh hright
  simp [hcomp, hsel, hgiv, hmode, hcell, h2]

/-! ## Invariant preservation for `handleNumberInput` -/

theorem memoToggleList_WF {cur : List Nat}
    (hsort : List.Sorted (· < ·) cur) (hmem : ∀ n ∈ cur, 1 ≤ n ∧ n ≤ 9)
    {d : Nat} (h1d : 1 ≤ d) (h9d : d ≤ 9) :
    List.Sorted (· < ·) (memoToggleList cur d) ∧
      ∀ n ∈ memoToggleList cur d, 1 ≤ n ∧ n ≤ 9 := by
  unfold memoToggleList
  split
  · refine ⟨List.Pairwise.filter _ hsort, ?_⟩
    intro n hn
    exact hmem n (List.mem_of_mem_filter hn)
  · next hnotin =>
    have hnd : (cur ++ [d]).Nodup := by
      rw [List.nodup_append]
      refine ⟨nodup_of_sorted_lt hsort, List.nodup_singleton d, ?_⟩
      intro a ha hb
      rw [List.mem_singleton] at hb
      subst hb
      exact hnotin ha
    have hperm := List.perm_insertionSort (· ≤ ·) (cur ++ [d])
    refine ⟨?_, ?_⟩
    · exact sorted_lt_of_le_nodup (List.sorted_insertionSort (· ≤ ·) (cur ++ [d]))
        (hperm.nodup_iff.mpr hnd)
    · intro n hn
      rcases List.mem_append.mp (hperm.mem_iff.mp hn) with h | h
      · exact hmem n h
      · rw [List.mem_singleton] at h
        subst h
        exact ⟨h1d, h9d⟩

theorem inv_updateCompletion {s' : Session} (hncomp : s'.isComplete = false)
    (hb : shaped s'.board) (hsol : shaped s'.solution) (hinit : shaped s'.initialBoard)
    (hdig : ∀ r c, r < 9 → c < 9 →
      1 ≤ getCell s'.solution r c ∧ getCell s'.solution r c ≤ 9)
    (hgiven : ∀ r c, r < 9 → c < 9 → getCell s'.initialBoard r c ≠ BLANK →
      getCell s'.board r c = getCell s'.initialBoard r c ∧
      getCell s'.initialBoard r c = getCell s'.solution r c)
    (hsel : ∀ p : Nat × Nat, s'.selectedCell = some p → p.1 < 9 ∧ p.2 < 9)
    (hmem : memosWF s'.memos) : Inv (updateCompletion s') := by
  unfold Inv
  rw [updateCompletion_board, updateCompletion_solution, updateCompletion_initialBoard,
    updateCompletion_selectedCell, updateCompletion_memos, updateCompletion_isComplete,
    hncomp]
  refine ⟨hb, hsol, hinit, hdig, hgiven, ?_, hsel, hmem⟩
  simp only [Bool.false_or]
  exact checkCompletion_iff _ _

theorem inv_handleNumberInput {s : Session} (hs : Inv s) {d : Nat}
    (h1d : 1 ≤ d) (h9d : d ≤ 9) : Inv (handleNumberInput s d) := by
  obtain ⟨h1, h2, h3, h4, h5, h6, h7, h8⟩ := hs
  cases hcomp : s.isComplete with
  | true =>
    rw [handleNumberInput_eq_complete d hcomp]
    exact ⟨h1, h2, h3, h4, h5, h6, h7, h8⟩
  | false =>
    cases hselc : s.selectedCell with
    | none =>
      rw [handleNumberInput_eq_noSel d hcomp hselc]
      exact ⟨h1, h2, h3, h4, h5, h6, h7, h8⟩
    | some rc =>
      obtain ⟨r, c⟩ := rc
      obtain ⟨hr, hc⟩ := h7 _ hselc
      by_cases hgiv : getCell s.initialBoard r c ≠ BLANK
      · rw [handleNumberInput_eq_given hcomp hselc hgiv]
        exact ⟨h1, h2, h3, h4, h5, h6, h7, h8⟩
      · have hgiv0 : getCell s.initialBoard r c = BLANK := not_not.mp hgiv
        cases hmode : s.isMemoMode with
        | true =>
          rw [handleNumberInput_eq_memo hcomp hselc hgiv0 hmode]
          refine ⟨h1, h2, h3, h4, h5, h6, h7, ?_⟩
          intro key v hv
          show List.Sorted (· < ·) v ∧ ∀ n ∈ v, 1 ≤ n ∧ n ≤ 9
          have hv2 : lookupMemo (setMemo s.memos (r, c)
              (memoToggleList ((lookupMemo s.memos (r, c)).getD []) d)) key = some v := hv
          rw [lookupMemo_setMemo] at hv2
          have hcur : List.Sorted (· < ·) ((lookupMemo s.memos (r, c)).getD []) ∧
              ∀ n ∈ (lookupMemo s.memos (r, c)).getD [], 1 ≤ n ∧ n ≤ 9 := by
            cases hl : lookupMemo s.memos (r, c) with
            | none => simp
            | some w =>
              have := h8 (r, c) w hl
              simpa using this
          split at hv2
          · obtain rfl : memoToggleList ((lookupMemo s.memos (r, c)).getD []) d = v := by
              simpa using hv2
            exact memoToggleList_WF hcur.1 hcur.2 h1d h9d
          · exact h8 key v hv2
        | false =>
          by_cases hcell : getCell s.board r c = d
          · rw [handleNumberInput_eq_toggleOff hcomp hselc hgiv0 hmode hcell]
            refine inv_updateCompletion hcomp (shaped_setCell h1 r c BLANK) h2 h3 h4
              ?_ h7 h8
            intro r' c' hr' hc' hnz
            have hne : ¬(r = r' ∧ c = c') := by
              intro ⟨hh1, hh2⟩
              rw [← hh1, ← hh2] at hnz
              exact hnz hgiv0
            show getCell (setCell s.board r c BLANK) r' c' = getCell s.initialBoard r' c' ∧
              getCell s.initialBoard r' c' = getCell s.solution r' c'
            rw [getCell_setCell_ne h1 hr hc _ hne]
            exact h5 r' c' hr' hc' hnz
          · by_cases hwrong : d ≠ getCell s.solution r c
            · rw [handleNumberInput_eq_wrong hcomp hselc hgiv0 hmode hcell hwrong]
              refine inv_updateCompletion hcomp (shaped_setCell h1 r c d) h2 h3 h4
                ?_ h7 h8
              intro r' c' hr' hc' hnz
              have hne : ¬(r = r' ∧ c = c') := by
                intro ⟨hh1, hh2⟩
                rw [← hh1, ← hh2] at hnz
                exact hnz hgiv0
              show getCell (setCell s.board r c d) r' c' = getCell s.initialBoard r' c' ∧
                getCell s.initialBoard r' c' = getCell s.solution r' c'
              rw [getCell_setCell_ne h1 hr hc _ hne]
              exact h5 r' c' hr' hc' hnz
            · have hright : d = getCell s.solution r c := not_not.mp hwrong
              rw [handleNumberInput_eq_right hcomp hselc hgiv0 hmode hcell hright]
              refine inv_updateCompletion hcomp (shaped_setCell h1 r c d) h2 h3 h4
                ?_ h7 ?_
              · intro r' c' hr' hc' hnz
                have hne : ¬(r = r' ∧ c = c') := by
                  intro ⟨hh1, hh2⟩
                  rw [← hh1, ← hh2] at hnz
                  exact hnz hgiv0
                show getCell (setCell s.board r c d) r' c' = getCell s.initialBoard r' c' ∧
                  getCell s.initialBoard r' c' = getCell s.solution r' c'
                rw [getCell_setCell_ne h1 hr hc _ hne]
                exact h5 r' c' hr' hc' hnz
              · intro key v hv
                show List.Sorted (· < ·) v ∧ ∀ n ∈ v, 1 ≤ n ∧ n ≤ 9
                have hv2 : lookupMemo (removeMemo s.memos (r, c)) key = some v := hv
                rw [lookupMemo_removeMemo] at hv2
                split at hv2
                · exact absurd hv2 (by simp)
                · exact h8 key v hv2

/-! ## The invariant holds in every reachable state -/

theorem inv_initSession (d : Difficulty) {fr : List Nat} {rs : Nat → List Nat}
    (ps : Nat → Fin 9 × Fin 9) (fuel : Nat) (m : Bool) {puz : Board}
    (hfr : fr.Perm digits) (hrs : ∀ k, (rs k).Perm digits)
    (hpz : (generatePuzzle d fr rs ps fuel).2 = some puz) :
    Inv (initSession (generatePuzzle d fr rs ps fuel).1 puz m) := by
  obtain ⟨hvalid, hshp, hagree, hfill, hcount⟩ := generatePuzzle_spec d ps fuel hfr hrs hpz
  obtain ⟨hsolsh, hsolcons, hsolnb⟩ := generateFullBoard_props hfr hrs
  have hsol1 : (generatePuzzle d fr rs ps fuel).1 = generateFullBoard fr rs := rfl
  have hdig : ∀ r c, r < 9 → c < 9 →
      1 ≤ getCell (generatePuzzle d fr rs ps fuel).1 r c ∧
      getCell (generatePuzzle d fr rs ps fuel).1 r c ≤ 9 := by
    intro r c hr hc
    rw [hsol1]
    have ha := hsolcons.1 r c hr hc
    have hb := hsolnb r c hr hc
    unfold BLANK at hb
    omega
  refine ⟨hshp, by rw [show (initSession (generatePuzzle d fr rs ps fuel).1 puz m).solution =
      (generatePuzzle d fr rs ps fuel).1 from rfl, hsol1]; exact hsolsh,
    hshp, hdig, ?_, ?_, ?_, ?_⟩
  · intro r c hr hc hnz
    exact ⟨rfl, (hagree r c hr hc hnz).symm ▸ (hagree r c hr hc hnz)⟩
  · show (false : Bool) = true ↔ _
    refine iff_of_false (by simp) ?_
    intro hall
    have hall2 : ∀ r c, r < 9 → c < 9 →
        getCell puz r c = getCell (generatePuzzle d fr rs ps fuel).1 r c := hall
    have hz : countBlank puz = 0 := by
      apply countBlank_eq_zero
      intro r c hr hc
      rw [hall2 r c hr hc]
      have := hdig r c hr hc
      unfold BLANK
      omega
    rw [hz] at hcount
    cases d <;> simp [removalBudget] at hcount
  · intro p hp
    exact absurd hp (by simp [initSession])
  · intro key v hv
    exact absurd hv (by simp [initSession, lookupMemo])

theorem reachable_inv {s : Session} (h : Reachable s) : Inv s := by
  induction h with
  | init d fr rs ps fuel m puz hfr hrs hpz => exact inv_initSession d ps fuel m hfr hrs hpz
  | select s r c hs hr hc ih => exact inv_selectCell ih hr hc
  | place s d hs h1 h9 ih => exact inv_handleNumberInput ih h1 h9
  | erase s hs ih => exact inv_handleErase ih
  | memoToggle s hs ih => exact inv_toggleMemoMode ih

/-! ## Reachability helpers and the concrete Easy run -/

theorem reachable_applyOp {s : Session} (hs : Reachable s) {op : Op} (hop : opOK op) :
    Reachable (applyOp s op) := by
  cases op with
  | select r c => exact Reachable.select s r c hs hop.1 hop.2
  | place d => exact Reachable.place s d hs hop.1 hop.2
  | erase => exact Reachable.erase s hs
  | memoToggle => exact Reachable.memoToggle s hs

theorem reachable_applyOps : ∀ (ops : List Op) {s : Session}, Reachable s →
    (∀ op ∈ ops, opOK op) → Reachable (applyOps s ops)
  | [], _, hs, _ => hs
  | op :: ops, s, hs, h =>
    reachable_applyOps ops (reachable_applyOp hs (h op (by simp)))
      (fun o ho => h o (by simp [ho]))

set_option maxRecDepth 10000 in
/-- Evaluating the generator on the concrete streams: the solver fills the
shifted-pattern board (the streams offer its digit first at every cell, so
no backtracking happens) and the removal loop blanks the first 30 cells. -/
theorem genEasy : generatePuzzle Difficulty.Easy digits rsPat psSeq 100 =
    (solLit, some puzLit) := by decide

theorem reachable_s0 (m : Bool) : Reachable (initSession solLit puzLit m) := by
  have h := Reachable.init Difficulty.Easy digits rsPat psSeq 100 m puzLit
    (List.Perm.refl digits)
    (fun k => List.rotate_perm digits (patIdx ((9 + k) / 9) ((9 + k) % 9)))
    (by rw [genEasy])
  rwa [show (generatePuzzle Difficulty.Easy digits rsPat psSeq 100).1 = solLit from
    by rw [genEasy]] at h

theorem handleErase_isComplete (s : Session) :
    (handleErase s).isComplete = s.isComplete := by
  unfold handleErase
  split
  · rfl
  · cases hselc : s.selectedCell with
    | none => rfl
    | some rc =>
      obtain ⟨r, c⟩ := rc
      show (if getCell s.initialBoard r c ≠ BLANK then s
        else { initialBoard := s.initialBoard, board := setCell s.board r c BLANK,
               solution := s.solution, selectedCell := some (r, c), memos := s.memos,
               isMemoMode := s.isMemoMode, mistakes := s.mistakes,
               isComplete := s.isComplete }).isComplete = s.isComplete
      split <;> rfl

/-! ## The two-call toggle computation -/

/-- Effect of one non-memo placement at a blank editable selected cell when
the resulting board does not pass the completion check. -/
theorem place_first {s : Session} {r c d : Nat} (hb : shaped s.board)
    (hcomp : s.isComplete = false) (hsel : s.selectedCell = some (r, c))
    (hgiv : getCell s.initialBoard r c = BLANK) (hmode : s.isMemoMode = false)
    (hr : r < 9) (hc : c < 9) (hcell : getCell s.board r c ≠ d)
    (hnc : checkCompletion (setCell s.board r c d) s.solution = false) :
    (handleNumberInput s d).board = setCell s.board r c d ∧
    (handleNumberInput s d).isComplete = false ∧
    (handleNumberInput s d).selectedCell = some (r, c) ∧
    (handleNumberInput s d).initialBoard = s.initialBoard ∧
    (handleNumberInput s d).isMemoMode = false ∧
    (handleNumberInput s d).mistakes =
      s.mistakes + (if d = getCell s.solution r c then 0 else 1) := by
  by_cases hd : d = getCell s.solution r c
  · rw [handleNumberInput_eq_right hcomp hsel hgiv hmode hcell hd]
    refine ⟨updateCompletion_board _, ?_, (updateCompletion_selectedCell _).trans hsel,
      updateCompletion_initialBoard _, (updateCompletion_isMemoMode _).trans hmode, ?_⟩
    · rw [updateCompletion_isComplete]
      show (s.isComplete || checkCompletion (setCell s.board r c d) s.solution) = false
      rw [hcomp, hnc]
      rfl
    · rw [updateCompletion_mistakes]
      show s.mistakes = s.mistakes + (if d = getCell s.solution r c then 0 else 1)
      rw [if_pos hd]
      omega
  · rw [handleNumberInput_eq_wrong hcomp hsel hgiv hmode hcell hd]
    refine ⟨updateCompletion_board _, ?_, (updateCompletion_selectedCell _).trans hsel,
      updateCompletion_initialBoard _, (updateCompletion_isMemoMode _).trans hmode, ?_⟩
    · rw [updateCompletion_isComplete]
      show (s.isComplete || checkCompletion (setCell s.board r c d) s.solution) = false
      rw [hcomp, hnc]
      rfl
    · rw [updateCompletion_mistakes]
      show s.mistakes + 1 = s.mistakes + (if d = getCell s.solution r c then 0 else 1)
      rw [if_neg hd]

/-- Effect of a second placement of the same digit: the toggle-off branch
blanks the cell and leaves the mistake count alone. -/
theorem toggle_second {s₁ : Session} {r c d : Nat} (hb1 : shaped s₁.board)
    (hcomp1 : s₁.isComplete = false) (hsel1 : s₁.selectedCell = some (r, c))
    (hgiv1 : getCell s₁.initialBoard r c = BLANK) (hmode1 : s₁.isMemoMode = false)
    (hr : r < 9) (hc : c < 9) (hcell1 : getCell s₁.board r c = d) :
    getCell (handleNumberInput s₁ d).board r c = BLANK ∧
    (handleNumberInput s₁ d).mistakes = s₁.mistakes := by
  rw [handleNumberInput_eq_toggleOff hcomp1 hsel1 hgiv1 hmode1 hcell1]
  refine ⟨?_, updateCompletion_mistakes _⟩
  rw [updateCompletion_board]
  exact getCell_setCell_self hb1 hr hc BLANK

/-! # Claim theorems -/

/-- C1: every board returned as the `solution` by `generatePuzzle` (via
`generateFullBoard` and `solveSudoku`) has each of the digits 1-9 exactly
once in every row, every column and every 3x3 box, for every difficulty and
every outcome of the random shuffles (which are always permutations of
1-9). -/
theorem C1_solution_valid (d : Difficulty) (fr : List Nat) (rs : Nat → List Nat)
    (ps : Nat → Fin 9 × Fin 9) (fuel : Nat)
    (hfr : fr.Perm digits) (hrs : ∀ k, (rs k).Perm digits) :
    validBoard (generatePuzzle d fr rs ps fuel).1 = true :=
  validBoard_generateFullBoard hfr hrs

/-- Witness for C1: the hypotheses hold and the conclusion follows at the
concrete Easy run. -/
theorem C1_witness :
    digits.Perm digits ∧ (∀ k, (rsPat k).Perm digits) ∧
      validBoard (generatePuzzle Difficulty.Easy digits rsPat psSeq 100).1 = true :=
  ⟨List.Perm.refl digits,
   fun k => List.rotate_perm digits (patIdx ((9 + k) / 9) ((9 + k) % 9)),
   C1_solution_valid Difficulty.Easy digits rsPat psSeq 100 (List.Perm.refl digits)
     (fun k => List.rotate_perm digits (patIdx ((9 + k) / 9) ((9 + k) % 9)))⟩

/-- C2: for every difficulty and every `{solution, puzzle}` pair a
terminating `generatePuzzle` run returns, every non-blank puzzle cell
equals the solution cell at the same coordinate, and the number of
non-blank puzzle cells is `81 - removalBudget d`, the budget being 30 for
Easy, 45 for Medium and 55 for Hard. -/
theorem C2_puzzle_spec (d : Difficulty) (fr : List Nat) (rs : Nat → List Nat)
    (ps : Nat → Fin 9 × Fin 9) (fuel : Nat) (puz : Board)
    (hfr : fr.Perm digits) (hrs : ∀ k, (rs k).Perm digits)
    (hpz : (generatePuzzle d fr rs ps fuel).2 = some puz) :
    (∀ r c, r < 9 → c < 9 → getCell puz r c ≠ BLANK →
      getCell puz r c = getCell (generatePuzzle d fr rs ps fuel).1 r c) ∧
    countFilled puz = 81 - removalBudget d ∧
    removalBudget Difficulty.Easy = 30 ∧ removalBudget Difficulty.Medium = 45 ∧
    removalBudget Difficulty.Hard = 55 := by
  obtain ⟨-, -, h2, h3, -⟩ := generatePuzzle_spec d ps fuel hfr hrs hpz
  exact ⟨h2, h3, rfl, rfl, rfl⟩

/-- Witness for C2 at the concrete Easy run: 51 = 81 - 30 cells survive. -/
theorem C2_witness :
    (generatePuzzle Difficulty.Easy digits rsPat psSeq 100).2 = some puzLit ∧
    countFilled puzLit = 81 - removalBudget Difficulty.Easy ∧
    countFilled puzLit = 51 ∧
    (∀ r c, r < 9 → c < 9 → getCell puzLit r c ≠ BLANK →
      getCell puzLit r c =
        getCell (generatePuzzle Difficulty.Easy digits rsPat psSeq 100).1 r c) := by
  have hpz : (generatePuzzle Difficulty.Easy digits rsPat psSeq 100).2 = some puzLit := by
    rw [genEasy]
  have h := C2_puzzle_spec Difficulty.Easy digits rsPat psSeq 100 puzLit
    (List.Perm.refl digits)
    (fun k => List.rotate_perm digits (patIdx ((9 + k) / 9) ((9 + k) % 9))) hpz
  exact ⟨hpz, h.2.1, by decide, h.1⟩

/-- C3 as stated is false on the code: the session below is reachable, its
cell (0, 0) holds a (wrong) digit, yet the annotations map still has an
entry for (0, 0) — `handleNumberInput` deletes the entry only when the
placed digit equals the solution. -/
theorem C3_counterexample :
    ∃ s, Reachable s ∧ ∃ r c, r < 9 ∧ c < 9 ∧ getCell s.board r c ≠ BLANK ∧
      lookupMemo s.memos (r, c) ≠ none := by
  refine ⟨applyOps (initSession solLit puzLit false)
      [Op.select 0 0, Op.memoToggle, Op.place 5, Op.memoToggle, Op.place 2],
    reachable_applyOps _ (reachable_s0 false) (by decide), 0, 0, ?_, ?_, ?_, ?_⟩ <;>
    decide

/-- C3 amended: the annotation entry of the selected blank editable cell is
removed from the map the instant a digit EQUAL TO THE SOLUTION is placed
there (memo mode off); a wrong placement leaves the entry, so the original
per-state invariant does not hold. -/
theorem C3_amended {s : Session} {r c d : Nat} (hcomp : s.isComplete = false)
    (hsel : s.selectedCell = some (r, c)) (hgiv : getCell s.initialBoard r c = BLANK)
    (hmode : s.isMemoMode = false) (hcell : getCell s.board r c ≠ d)
    (hright : d = getCell s.solution r c) :
    lookupMemo (handleNumberInput s d).memos (r, c) = none := by
  rw [handleNumberInput_eq_right hcomp hsel hgiv hmode hcell hright,
    updateCompletion_memos]
  show lookupMemo (removeMemo s.memos (r, c)) (r, c) = none
  rw [lookupMemo_removeMemo, if_pos rfl]

/-- Witness for C3 amended: placing the correct digit 1 at (0, 0) of
`sessA` (annotation set {2, 5}) clears the entry. -/
theorem C3_witness :
    (sessA.isComplete = false ∧ sessA.selectedCell = some (0, 0) ∧
      getCell sessA.initialBoard 0 0 = BLANK ∧ sessA.isMemoMode = false ∧
      getCell sessA.board 0 0 ≠ 1 ∧ (1 : Nat) = getCell sessA.solution 0 0) ∧
    lookupMemo (handleNumberInput sessA 1).memos (0, 0) = none :=
  ⟨⟨rfl, rfl, by decide, rfl, by decide, by decide⟩,
   C3_amended rfl rfl (by decide) rfl (by decide) (by decide)⟩

/-- C4: in every reachable session state, `isComplete` is true exactly when
`currentBoard` equals `solutionBoard` cell-for-cell; moreover `handleErase`
never changes `isComplete` (it does not run the completion check), and the
equivalence nevertheless survives every operation. -/
theorem C4_isComplete_iff {s : Session} (hs : Reachable s) :
    (s.isComplete = true ↔
      ∀ r c, r < 9 → c < 9 → getCell s.board r c = getCell s.solution r c) ∧
    (handleErase s).isComplete = s.isComplete :=
  ⟨(reachable_inv hs).2.2.2.2.2.1, handleErase_isComplete s⟩

/-- Witness for C4 at the freshly generated Easy session. -/
theorem C4_witness :
    ((initSession solLit puzLit false).isComplete = true ↔
      ∀ r c, r < 9 → c < 9 →
        getCell (initSession solLit puzLit false).board r c =
          getCell (initSession solLit puzLit false).solution r c) ∧
    (handleErase (initSession solLit puzLit false)).isComplete =
      (initSession solLit puzLit false).isComplete :=
  C4_isComplete_iff (reachable_s0 false)

/-- C5 as stated is false on the code: in the reachable session below
(every cell correct except the selected blank editable cell (3, 2)),
placing the correct digit 4 twice does NOT restore the cell to BLANK — the
first call completes the board, so the second call is a no-op. -/
theorem C5_counterexample :
    ∃ s, Reachable s ∧ ∃ r c d,
      s.isComplete = false ∧ s.selectedCell = some (r, c) ∧ r < 9 ∧ c < 9 ∧
      getCell s.initialBoard r c = BLANK ∧ getCell s.board r c = BLANK ∧
      s.isMemoMode = false ∧ 1 ≤ d ∧ d ≤ 9 ∧
      getCell (handleNumberInput (handleNumberInput s d) d).board r c ≠ BLANK := by
  refine ⟨applyOps (initSession solLit puzLit false) (opsFill29 ++ [Op.select 3 2]),
    reachable_applyOps _ (reachable_s0 false) (by decide), 3, 2, 4,
    ?_, ?_, ?_, ?_, ?_, ?_, ?_, ?_, ?_, ?_⟩ <;> decide

/-- C5 amended: the toggle law holds provided the first placement does not
pass the completion check: `placeDigit d` twice on a blank editable
selected cell restores the cell to BLANK, the first call adds exactly one
mistake when `d` is wrong and none when it is right, and the second call
never increments the count. -/
theorem C5_amended {s : Session} {r c d : Nat} (hb : shaped s.board)
    (hcomp : s.isComplete = false) (hsel : s.selectedCell = some (r, c))
    (hr : r < 9) (hc : c < 9) (hgiv : getCell s.initialBoard r c = BLANK)
    (hblank : getCell s.board r c = BLANK) (hmode : s.isMemoMode = false)
    (h1d : 1 ≤ d)
    (hnc : checkCompletion (setCell s.board r c d) s.solution = false) :
    getCell (handleNumberInput (handleNumberInput s d) d).board r c = BLANK ∧
    (handleNumberInput s d).mistakes =
      s.mistakes + (if d = getCell s.solution r c then 0 else 1) ∧
    (handleNumberInput (handleNumberInput s d) d).mistakes =
      (handleNumberInput s d).mistakes := by
  have hcell : getCell s.board r c ≠ d := by
    rw [hblank]
    unfold BLANK
    omega
  obtain ⟨hb1, hic1, hsel1, hinit1, hmode1, hmist1⟩ :=
    place_first hb hcomp hsel hgiv hmode hr hc hcell hnc
  have hbs1 : shaped (handleNumberInput s d).board := by
    rw [hb1]
    exact shaped_setCell hb r c d
  have hcell1 : getCell (handleNumberInput s d).board r c = d := by
    rw [hb1]
    exact getCell_setCell_self hb hr hc d
  have hgiv1 : getCell (handleNumberInput s d).initialBoard r c = BLANK := by
    rw [hinit1]
    exact hgiv
  obtain ⟨hres, hmist2⟩ := toggle_second hbs1 hic1 hsel1 hgiv1 hmode1 hr hc hcell1
  exact ⟨hres, hmist1, hmist2⟩

/-- Witness for C5 amended: in `sessB`, placing the wrong digit 5 at (0, 0)
twice restores BLANK with exactly one mistake from the first call. -/
theorem C5_witness :
    (shaped sessB.board ∧ sessB.isComplete = false ∧
      sessB.selectedCell = some (0, 0) ∧ getCell sessB.initialBoard 0 0 = BLANK ∧
      getCell sessB.board 0 0 = BLANK ∧ sessB.isMemoMode = false ∧
      checkCompletion (setCell sessB.board 0 0 5) sessB.solution = false) ∧
    getCell (handleNumberInput (handleNumberInput sessB 5) 5).board 0 0 = BLANK ∧
    (handleNumberInput sessB 5).mistakes =
      sessB.mistakes + (if 5 = getCell sessB.solution 0 0 then 0 else 1) ∧
    (handleNumberInput (handleNumberInput sessB 5) 5).mistakes =
      (handleNumberInput sessB 5).mistakes :=
  ⟨⟨by decide, rfl, rfl, by decide, by decide, rfl, by decide⟩,
   C5_amended (by decide) rfl rfl (by decide) (by decide) (by decide) (by decide) rfl
     (by decide) (by decide)⟩

/-- C6: in every reachable session state, every given cell (non-blank in
the generated puzzle, stored as `initialBoard`) still shows exactly the
generated value, which equals the solution value there — no sequence of
`placeDigit`/`erase` calls can change it. -/
theorem C6_given_cells_immutable {s : Session} (hs : Reachable s) :
    ∀ r c, r < 9 → c < 9 → getCell s.initialBoard r c ≠ BLANK →
      getCell s.board r c = getCell s.initialBoard r c ∧
      getCell s.initialBoard r c = getCell s.solution r c :=
  (reachable_inv hs).2.2.2.2.1

/-- Witness for C6: after trying to overwrite and erase the given cell
(8, 8), its value still equals puzzle and solution. -/
theorem C6_witness :
    getCell (applyOps (initSession solLit puzLit false)
        [Op.select 8 8, Op.place 3, Op.erase]).initialBoard 8 8 ≠ BLANK ∧
    (getCell (applyOps (initSession solLit puzLit false)
        [Op.select 8 8, Op.place 3, Op.erase]).board 8 8 =
      getCell (applyOps (initSession solLit puzLit false)
        [Op.select 8 8, Op.place 3, Op.erase]).initialBoard 8 8 ∧
     getCell (applyOps (initSession solLit puzLit false)
        [Op.select 8 8, Op.place 3, Op.erase]).initialBoard 8 8 =
      getCell (applyOps (initSession solLit puzLit false)
        [Op.select 8 8, Op.place 3, Op.erase]).solution 8 8) :=
  ⟨by decide,
   C6_given_cells_immutable
     (reachable_applyOps [Op.select 8 8, Op.place 3, Op.erase]
       (reachable_s0 false) (by decide)) 8 8
     (by decide) (by decide) (by decide)⟩

/-- C7 as stated is false on the code: with the board whose only non-blank
cell is (0, 0) = 5, the digit 5 occurs nowhere ELSE in row 0, column 0 or
the top-left box, so the claimed contract answers true ("true otherwise"),
but `isSafe` scans the cell itself and answers false. -/
theorem C7_counterexample :
    isSafe (setCell getEmptyBoard 0 0 5) 0 0 5 = false ∧
    occursElsewhere (setCell getEmptyBoard 0 0 5) 0 0 5 = false ∧
    isSafe (setCell getEmptyBoard 0 0 5) 0 0 5 ≠
      isPlaceableSpec (setCell getEmptyBoard 0 0 5) 0 0 5 := by
  refine ⟨?_, ?_, ?_⟩ <;> decide

/-- C7 amended: `isSafe` returns false exactly when the digit already
occurs ANYWHERE in the row, the column, or the 3x3 box containing
(row, col) — the cell (row, col) itself included — and true otherwise; as a
Lean function it is trivially pure. -/
theorem C7_amended (b : Board) (row col num : Nat) :
    isSafe b row col num = !(occursAnywhere b row col num) := by
  have h1 := isSafe_iff b row col num
  have h2 : occursAnywhere b row col num = false ↔
      (∀ x, x < 9 → getCell b row x ≠ num) ∧
      (∀ x, x < 9 → getCell b x col ≠ num) ∧
      (∀ i j, i < 3 → j < 3 →
        getCell b (i + (row - row % 3)) (j + (col - col % 3)) ≠ num) := by
    unfold occursAnywhere
    simp only [Bool.or_eq_false_iff, List.any_eq_false, List.mem_range,
      Bool.not_eq_true, beq_eq_false_iff_ne, ne_eq]
    constructor
    · rintro ⟨⟨ha, hb2⟩, hc2⟩
      exact ⟨fun x hx => ha x hx, fun x hx => hb2 x hx,
        fun i j hi hj => hc2 i hi j hj⟩
    · rintro ⟨ha, hb2, hc2⟩
      exact ⟨⟨fun x hx => ha x hx, fun x hx => hb2 x hx⟩,
        fun i hi j hj => hc2 i j hi hj⟩
  have hiff : isSafe b row col num = true ↔ occursAnywhere b row col num = false := by
    rw [h1, h2]
  cases ho : occursAnywhere b row col num
  · rw [hiff.mpr ho]
    rfl
  · have hne : isSafe b row col num ≠ true := by
      intro h
      have hcontra := hiff.mp h
      rw [ho] at hcontra
      exact Bool.noConfusion hcontra
    rw [Bool.eq_false_iff.mpr hne]
    rfl

/-- C8: the top-level `solveSudoku` call made inside `generateFullBoard`
never returns failure (the seeded first row, a permutation of 1-9, always
admits a completion, and the exhaustive randomized backtracking finds one),
and the board `generateFullBoard` returns is exactly the board of that
successful run.  The generator therefore never returns a board built from a
failed run: the claim's conditional is satisfied because its antecedent
never occurs. -/
theorem C8_no_failed_run (fr : List Nat) (rs : Nat → List Nat)
    (hfr : fr.Perm digits) (hrs : ∀ k, (rs k).Perm digits) :
    (solveSudoku rs (getEmptyBoard.set 0 fr) 0).1 = true ∧
    generateFullBoard fr rs = (solveSudoku rs (getEmptyBoard.set 0 fr) 0).2.1 :=
  ⟨solveSudoku_seed hfr hrs, rfl⟩

/-- Witness for C8 at the concrete streams. -/
theorem C8_witness :
    (solveSudoku rsPat (getEmptyBoard.set 0 digits) 0).1 = true ∧
    generateFullBoard digits rsPat =
      (solveSudoku rsPat (getEmptyBoard.set 0 digits) 0).2.1 :=
  C8_no_failed_run digits rsPat (List.Perm.refl digits)
    (fun k => List.rotate_perm digits (patIdx ((9 + k) / 9) ((9 + k) % 9)))

/-- C9: when a memo-mode `placeDigit d` removes the last annotated digit of
the selected editable cell, the annotations map afterwards still contains
an entry for that key, bound to the empty list — the entry is not removed
from the map. -/
theorem C9_empty_entry_kept {s : Session} {r c d : Nat} (hcomp : s.isComplete = false)
    (hsel : s.selectedCell = some (r, c)) (hgiv : getCell s.initialBoard r c = BLANK)
    (hmode : s.isMemoMode = true) (hl : lookupMemo s.memos (r, c) = some [d]) :
    lookupMemo (handleNumberInput s d).memos (r, c) = some [] := by
  rw [handleNumberInput_eq_memo hcomp hsel hgiv hmode]
  have hm : ({ s with memos := (setMemo s.memos (r, c)
      (memoToggleList ((lookupMemo s.memos (r, c)).getD []) d)) } : Session).memos =
      setMemo s.memos (r, c)
        (memoToggleList ((lookupMemo s.memos (r, c)).getD []) d) := rfl
  rw [hm, lookupMemo_setMemo, if_pos rfl, hl]
  simp [memoToggleList]

/-- Witness for C9: removing the single annotated digit 5 at (0, 0) of
`sessC` leaves the entry bound to `[]`. -/
theorem C9_witness :
    (sessC.isComplete = false ∧ sessC.selectedCell = some (0, 0) ∧
      getCell sessC.initialBoard 0 0 = BLANK ∧ sessC.isMemoMode = true ∧
      lookupMemo sessC.memos (0, 0) = some [5]) ∧
    lookupMemo (handleNumberInput sessC 5).memos (0, 0) = some [] :=
  ⟨⟨rfl, rfl, by decide, rfl, by decide⟩,
   C9_empty_entry_kept rfl rfl (by decide) rfl (by decide)⟩

/-- C10: in every reachable session state, every annotation entry is a
strictly increasing (hence duplicate-free, ascending, deterministic) list
of digits 1-9. -/
theorem C10_memos_sorted {s : Session} (hs : Reachable s) :
    ∀ key v, lookupMemo s.memos key = some v →
      List.Sorted (· < ·) v ∧ ∀ n ∈ v, 1 ≤ n ∧ n ≤ 9 :=
  (reachable_inv hs).2.2.2.2.2.2.2

/-- Witness for C10: annotating 5 then 3 at cell (0, 0) stores the sorted
list [3, 5]. -/
theorem C10_witness :
    lookupMemo (applyOps (initSession solLit puzLit false)
        [Op.select 0 0, Op.memoToggle, Op.place 5, Op.place 3]).memos (0, 0) =
      some [3, 5] ∧
    List.Sorted (· < ·) [3, 5] ∧ ∀ n ∈ [3, 5], 1 ≤ n ∧ n ≤ 9 :=
  ⟨by decide,
   C10_memos_sorted
     (reachable_applyOps [Op.select 0 0, Op.memoToggle, Op.place 5, Op.place 3]
       (reachable_s0 false) (by decide)) (0, 0) [3, 5] (by decide)⟩

end Sudoku
